import Mathlib

/-!
Shallow embedding of the version-control subsystem of this repository
(`modules/version_service.py`, class `StandardVersionControl`) together with
the parts of Python's standard library `difflib` that `compare_versions`
calls (`SequenceMatcher` with `isjunk=None`, and `unified_diff`).

Modelling conventions:
* file contents are `List Char`; paths, version ids and digests are `String`;
* the SHA-256 digest is an explicit function parameter `hashFn` of the
  operations that hash (the code's behaviour does not depend on which digest
  is used, only on equality of digests);
* the in-memory ledger (`self.versions`), the durable ledger file, the live
  artifact files and the backup directory form one record `RepoState`;
* Python's in-place mutation with exceptions is modelled by returning the
  final state paired with `Except`: the state component is the state the
  object holds when the call returns or raises;
* I/O failures of `json.dump` (swallowed by `_save_versions`) and of
  `shutil.copy2` in `_backup_version` (swallowed as well) are modelled by
  the boolean parameters `persistOk` and `backupOk`;
* timestamps and the current user are passed as explicit arguments.
-/

/-! ## Character-list utilities (Python string helpers used by the source) -/

/-- Split a character list at every occurrence of `sep`, Python `str.split`. -/
def splitOnChar (sep : Char) : List Char → List Char → List (List Char)
  | [], acc => [acc.reverse]
  | c :: cs, acc => if c = sep then acc.reverse :: splitOnChar sep cs [] else splitOnChar sep cs (c :: acc)

/-- Python `int(s)` restricted to plain decimal digit strings (the only shape
the source ever produces); `none` where `int` would raise `ValueError`. -/
def digitsToNat (cs : List Char) : Option Nat :=
  if cs = [] then none
  else if cs.all (fun c => c.isDigit) then
    some (cs.foldl (fun n c => n * 10 + (c.toNat - 48)) 0)
  else none

/-- One decimal digit as a character. -/
def digitChar : Nat → Char
  | 0 => '0'
  | 1 => '1'
  | 2 => '2'
  | 3 => '3'
  | 4 => '4'
  | 5 => '5'
  | 6 => '6'
  | 7 => '7'
  | 8 => '8'
  | _ => '9'

/-- Decimal digits of a natural number, Python `str(n)` / f-string formatting;
the fuel (always supplied `> n`) only makes the recursion structural. -/
def natDigitsF : Nat → Nat → List Char → List Char
  | 0, _, acc => acc
  | fuel + 1, n, acc =>
    if n < 10 then digitChar n :: acc
    else natDigitsF fuel (n / 10) (digitChar (n % 10) :: acc)

/-- Decimal representation of `n` as a character list. -/
def natDigits (n : Nat) : List Char := natDigitsF (n + 1) n []

/-- Decimal representation of `n` as a string. -/
def natStr (n : Nat) : String := String.mk (natDigits n)

/-- `version.lstrip('v').split('.')` then `int` on every component, `none`
when some component would make `int` raise (the source then crashes, which is
outside the modelled domain). -/
def parseKeyChars (cs : List Char) : Option (List Nat) :=
  (splitOnChar '.' (cs.dropWhile (fun c => c = 'v')) []).mapM digitsToNat

/-- The sort key `[int(x) for x in v['version_id'].lstrip('v').split('.')]`. -/
def verKey (s : String) : Option (List Nat) := parseKeyChars s.data

/-- Total version of `verKey` (theorems carry the hypothesis that every id
in scope parses, i.e. `verKey` is `some`, matching where the source does not
raise `ValueError`). -/
def verKeyD (s : String) : List Nat := (verKey s).getD []

/-- Python's `<` on lists of ints: lexicographic, a strict prefix is smaller. -/
def keyLt : List Nat → List Nat → Bool
  | [], [] => false
  | [], _ :: _ => true
  | _ :: _, [] => false
  | a :: as, b :: bs => if a < b then true else if b < a then false else keyLt as bs

/-- First-match lookup in an association list (a file system directory, a
backup directory, a dictionary). -/
def fsGet {β : Type} (m : List (String × β)) (k : String) : Option β :=
  match m.find? (fun p => p.1 == k) with
  | some p => some p.2
  | none => none

/-- Overwrite-or-insert in an association list (writing a file, `dict.__setitem__`). -/
def fsSet {β : Type} : List (String × β) → String → β → List (String × β)
  | [], k, v => [(k, v)]
  | p :: rest, k, v => if p.1 == k then (k, v) :: rest else p :: fsSet rest k v

/-- `pathlib.Path(p).name`: the part of the path after the last slash. -/
def basename (p : String) : String :=
  String.mk ((splitOnChar '/' p.data []).getLastD [])

/-- Python `file.readlines()` on text whose newlines are `'\n'`: split keeping
the terminator on every line. -/
def splitKeepNl : List Char → List Char → List (List Char)
  | [], [] => []
  | [], acc => [acc.reverse]
  | c :: cs, acc =>
    if c = '\n' then (acc.reverse ++ ['\n']) :: splitKeepNl cs []
    else splitKeepNl cs (c :: acc)

/-- All lines of a file content, Python `readlines`. -/
def readlines (cs : List Char) : List (List Char) := splitKeepNl cs []

/-! ## `difflib.SequenceMatcher(None, a, b)`

Specialised to `isjunk=None` (the only configuration the source uses), so the
junk set `bjunk` is empty and only the `autojunk` popularity filter thins the
index `b2j`. Elements are generic with decidable equality: characters for
`ratio`, whole lines for `unified_diff`. -/

/-- One matching block, `difflib.Match(a, b, size)`. -/
structure MatchBlock where
  i : Nat
  j : Nat
  size : Nat
deriving Repr, DecidableEq

/-- `b2j.setdefault(elt, []).append(idx)`. -/
def b2jInsert {α : Type} [DecidableEq α] : List (α × List Nat) → α → Nat → List (α × List Nat)
  | [], e, idx => [(e, [idx])]
  | p :: rest, e, idx =>
    if p.1 = e then (p.1, p.2 ++ [idx]) :: rest else p :: b2jInsert rest e idx

/-- `for i, elt in enumerate(b): b2j.setdefault(elt, []).append(i)`. -/
def b2jOf {α : Type} [DecidableEq α] (b : List α) : List (α × List Nat) :=
  b.enum.foldl (fun m p => b2jInsert m p.2 p.1) []

/-- `__chain_b` with `isjunk=None`: build `b2j` and, when `autojunk` applies
(`len(b) >= 200`), delete the entries of popular elements (occurring more than
`len(b) // 100 + 1` times). -/
def chainB {α : Type} [DecidableEq α] (b : List α) : List (α × List Nat) :=
  let b2j := b2jOf b
  let n := b.length
  if 200 ≤ n then
    let ntest := n / 100 + 1
    b2j.filter (fun p => decide (p.2.length ≤ ntest))
  else b2j

/-- `b2j.get(elt, [])`. -/
def b2jGet {α : Type} [DecidableEq α] (m : List (α × List Nat)) (e : α) : List Nat :=
  match m.find? (fun p => decide (p.1 = e)) with
  | some p => p.2
  | none => []

/-- The running best match of `find_longest_match`. -/
structure FlmSt where
  besti : Nat
  bestj : Nat
  bestsize : Nat
deriving Repr, DecidableEq

/-- `j2len.get(j, 0)`. -/
def j2lenGet (m : List (Nat × Nat)) (j : Nat) : Nat :=
  match m.find? (fun p => p.1 == j) with
  | some p => p.2
  | none => 0

/-- The inner loop of `find_longest_match` over `b2j[a[i]]`: `continue` below
`blo`, `break` at `bhi`, chain length `k = j2len.get(j-1, 0) + 1` read from the
previous row, the new row built in `cur`, the best updated on strictly longer
matches. -/
def flmInner (i blo bhi : Nat) (prev : List (Nat × Nat)) :
    List Nat → FlmSt → List (Nat × Nat) → FlmSt × List (Nat × Nat)
  | [], st, cur => (st, cur)
  | j :: js, st, cur =>
    if j < blo then flmInner i blo bhi prev js st cur
    else if bhi ≤ j then (st, cur)
    else
      let k := (if j = 0 then 0 else j2lenGet prev (j - 1)) + 1
      let cur' := (j, k) :: cur
      let st' := if st.bestsize < k then ⟨i + 1 - k, j + 1 - k, k⟩ else st
      flmInner i blo bhi prev js st' cur'

/-- The dynamic-programming phase of `find_longest_match`: one row per
`i in range(alo, ahi)`, each row's `j2len` feeding the next. -/
def flmPhase1 {α : Type} [DecidableEq α] (a : List α) (b2j : List (α × List Nat))
    (alo ahi blo bhi : Nat) : FlmSt :=
  ((List.range' alo (ahi - alo)).foldl
    (fun (p : FlmSt × List (Nat × Nat)) i =>
      match a[i]? with
      | none => (p.1, [])
      | some ai => flmInner i blo bhi p.2 (b2jGet b2j ai) p.1 [])
    (⟨alo, blo, 0⟩, [])).1

/-- `while besti > alo and bestj > blo and a[besti-1] == b[bestj-1]` (the junk
set is empty under `isjunk=None`, so the two extension loops of the source
collapse into one plain-equality extension per side). -/
def extendLeft {α : Type} [DecidableEq α] (a b : List α) (alo blo : Nat) :
    Nat → FlmSt → FlmSt
  | 0, st => st
  | fuel + 1, st =>
    match a[st.besti - 1]?, b[st.bestj - 1]? with
    | some x, some y =>
      if alo < st.besti ∧ blo < st.bestj ∧ x = y then
        extendLeft a b alo blo fuel ⟨st.besti - 1, st.bestj - 1, st.bestsize + 1⟩
      else st
    | _, _ => st

/-- `while besti+bestsize < ahi and bestj+bestsize < bhi and a[besti+bestsize] == b[bestj+bestsize]`. -/
def extendRight {α : Type} [DecidableEq α] (a b : List α) (ahi bhi : Nat) :
    Nat → FlmSt → FlmSt
  | 0, st => st
  | fuel + 1, st =>
    match a[st.besti + st.bestsize]?, b[st.bestj + st.bestsize]? with
    | some x, some y =>
      if st.besti + st.bestsize < ahi ∧ st.bestj + st.bestsize < bhi ∧ x = y then
        extendRight a b ahi bhi fuel ⟨st.besti, st.bestj, st.bestsize + 1⟩
      else st
    | _, _ => st

/-- `find_longest_match(alo, ahi, blo, bhi)` with `isjunk=None`. -/
def findLongestMatch {α : Type} [DecidableEq α] (a b : List α)
    (b2j : List (α × List Nat)) (alo ahi blo bhi : Nat) : MatchBlock :=
  let st := flmPhase1 a b2j alo ahi blo bhi
  let st := extendLeft a b alo blo st.besti st
  let st := extendRight a b ahi bhi ahi st
  ⟨st.besti, st.bestj, st.bestsize⟩

/-- The queue loop of `get_matching_blocks` written as structural recursion
(the queue order only permutes the output, which the source sorts right
after); the fuel exceeds the depth, which shrinks the `a`-range every level. -/
def matchingBlocksRec {α : Type} [DecidableEq α] (a b : List α)
    (b2j : List (α × List Nat)) : Nat → Nat → Nat → Nat → Nat → List MatchBlock
  | 0, _, _, _, _ => []
  | fuel + 1, alo, ahi, blo, bhi =>
    let m := findLongestMatch a b b2j alo ahi blo bhi
    if m.size = 0 then []
    else
      (if alo < m.i ∧ blo < m.j then matchingBlocksRec a b b2j fuel alo m.i blo m.j else [])
        ++ m :: (if m.i + m.size < ahi ∧ m.j + m.size < bhi then
            matchingBlocksRec a b b2j fuel (m.i + m.size) ahi (m.j + m.size) bhi else [])

/-- Comparison on the triples `(a, b, size)`, Python tuple ordering. -/
def blockLe (x y : MatchBlock) : Bool :=
  if x.i ≠ y.i then decide (x.i < y.i)
  else if x.j ≠ y.j then decide (x.j < y.j)
  else decide (x.size ≤ y.size)

/-- Insertion step of a stable sort. -/
def insertBlock (x : MatchBlock) : List MatchBlock → List MatchBlock
  | [] => [x]
  | y :: ys => if blockLe x y then x :: y :: ys else y :: insertBlock x ys

/-- `matching_blocks.sort()` (a stable comparison sort; on the pairwise
distinct triples the recursion produces any such sort agrees). -/
def sortBlocks (l : List MatchBlock) : List MatchBlock := l.foldr insertBlock []

/-- The second loop of `get_matching_blocks`: collapse adjacent blocks. -/
def mergeLoop : Nat → Nat → Nat → List MatchBlock → List MatchBlock
  | i1, j1, k1, [] => if k1 ≠ 0 then [⟨i1, j1, k1⟩] else []
  | i1, j1, k1, m :: rest =>
    if i1 + k1 = m.i ∧ j1 + k1 = m.j then mergeLoop i1 j1 (k1 + m.size) rest
    else (if k1 ≠ 0 then [⟨i1, j1, k1⟩] else []) ++ mergeLoop m.i m.j m.size rest

/-- `get_matching_blocks()`: recurse, sort, collapse adjacent blocks, append
the sentinel `(la, lb, 0)`. -/
def getMatchingBlocks {α : Type} [DecidableEq α] (a b : List α) : List MatchBlock :=
  let b2j := chainB b
  let raw := matchingBlocksRec a b b2j (a.length + 1) 0 a.length 0 b.length
  mergeLoop 0 0 0 (sortBlocks raw) ++ [⟨a.length, b.length, 0⟩]

/-- `sum(triple[-1] for triple in self.get_matching_blocks())`. -/
def matchesTotal {α : Type} [DecidableEq α] (a b : List α) : Nat :=
  ((getMatchingBlocks a b).map MatchBlock.size).sum

/-- `_calculate_ratio(matches, length)` over the rationals (the source uses
IEEE doubles; the properties in scope are exact at these small integers). -/
def calcRatioQ (m length : Nat) : ℚ :=
  if length = 0 then 1 else 2 * (m : ℚ) / (length : ℚ)

/-- `SequenceMatcher(None, a, b).ratio()`. -/
def ratioScore {α : Type} [DecidableEq α] (a b : List α) : ℚ :=
  calcRatioQ (matchesTotal a b) (a.length + b.length)

/-- Opcode tags of `get_opcodes`. -/
inductive OpTag where
  | replace
  | delete
  | insert
  | equal
deriving Repr, DecidableEq

/-- One `(tag, i1, i2, j1, j2)` opcode. -/
structure Opcode where
  tag : OpTag
  i1 : Nat
  i2 : Nat
  j1 : Nat
  j2 : Nat
deriving Repr, DecidableEq

/-- The loop of `get_opcodes` over the matching blocks, cursors `i`, `j`. -/
def opcodeLoop : Nat → Nat → List MatchBlock → List Opcode
  | _, _, [] => []
  | i, j, m :: rest =>
    let pre : List Opcode :=
      if i < m.i ∧ j < m.j then [⟨.replace, i, m.i, j, m.j⟩]
      else if i < m.i then [⟨.delete, i, m.i, j, m.j⟩]
      else if j < m.j then [⟨.insert, i, m.i, j, m.j⟩]
      else []
    let eqc : List Opcode :=
      if m.size ≠ 0 then [⟨.equal, m.i, m.i + m.size, m.j, m.j + m.size⟩] else []
    pre ++ eqc ++ opcodeLoop (m.i + m.size) (m.j + m.size) rest

/-- `get_opcodes()`. -/
def getOpcodes {α : Type} [DecidableEq α] (a b : List α) : List Opcode :=
  opcodeLoop 0 0 (getMatchingBlocks a b)

/-- The fixup of a leading `equal` opcode in `get_grouped_opcodes`. -/
def fixHead (n : Nat) : List Opcode → List Opcode
  | ⟨.equal, i1, i2, j1, j2⟩ :: rest =>
    ⟨.equal, max i1 (i2 - n), i2, max j1 (j2 - n), j2⟩ :: rest
  | l => l

/-- The fixup of a trailing `equal` opcode in `get_grouped_opcodes`. -/
def fixTail (n : Nat) (l : List Opcode) : List Opcode :=
  match l.getLast? with
  | some ⟨.equal, i1, i2, j1, j2⟩ => l.dropLast ++ [⟨.equal, i1, min i2 (i1 + n), j1, min j2 (j1 + n)⟩]
  | _ => l

/-- The grouping loop of `get_grouped_opcodes`: split at equal runs longer
than `2n`, keep the final group unless it is a single `equal` opcode. -/
def groupLoop (n : Nat) : List Opcode → List Opcode → List (List Opcode)
  | group, [] =>
    if group ≠ [] ∧ ¬(group.length = 1 ∧ (group.head?.map Opcode.tag) = some .equal)
    then [group] else []
  | group, c :: rest =>
    if c.tag = .equal ∧ n + n < c.i2 - c.i1 then
      (group ++ [⟨.equal, c.i1, min c.i2 (c.i1 + n), c.j1, min c.j2 (c.j1 + n)⟩])
        :: groupLoop n [⟨.equal, max c.i1 (c.i2 - n), c.i2, max c.j1 (c.j2 - n), c.j2⟩] rest
    else groupLoop n (group ++ [c]) rest

/-- `get_grouped_opcodes(n)`, including the `[('equal', 0, 1, 0, 1)]` stand-in
for an empty opcode list. -/
def getGroupedOpcodes {α : Type} [DecidableEq α] (a b : List α) (n : Nat) :
    List (List Opcode) :=
  let codes := getOpcodes a b
  let codes := if codes = [] then [⟨.equal, 0, 1, 0, 1⟩] else codes
  groupLoop n [] (fixTail n (fixHead n codes))

/-- `difflib._format_range_unified`. -/
def formatRangeUnified (start stop : Nat) : String :=
  let beginning := start + 1
  let length := stop - start
  if length = 1 then natStr beginning
  else
    let beginning := if length = 0 then beginning - 1 else beginning
    natStr beginning ++ "," ++ natStr length

/-- Python list slice `l[i:j]`. -/
def sliceL {α : Type} (l : List α) (i j : Nat) : List α := (l.drop i).take (j - i)

/-- The lines one opcode contributes to a unified-diff hunk. -/
def opLines (a b : List (List Char)) (c : Opcode) : List (List Char) :=
  match c.tag with
  | .equal => (sliceL a c.i1 c.i2).map (fun l => ' ' :: l)
  | .delete => (sliceL a c.i1 c.i2).map (fun l => '-' :: l)
  | .insert => (sliceL b c.j1 c.j2).map (fun l => '+' :: l)
  | .replace =>
      ((sliceL a c.i1 c.i2).map (fun l => '-' :: l))
        ++ ((sliceL b c.j1 c.j2).map (fun l => '+' :: l))

/-- One hunk of `unified_diff`: the `@@` header then the prefixed lines. -/
def hunkLines (a b : List (List Char)) (g : List Opcode) : List (List Char) :=
  match g.head?, g.getLast? with
  | some first, some lastc =>
    ("@@ -" ++ formatRangeUnified first.i1 lastc.i2
      ++ " +" ++ formatRangeUnified first.j1 lastc.j2 ++ " @@\n").data
      :: (g.map (opLines a b)).flatten
  | _, _ => []

/-- `list(difflib.unified_diff(a, b, fromfile, tofile, n=3))` with the default
line terminator: the two `---`/`+++` header lines are produced before the
first group only, and nothing at all when there is no group. -/
def unifiedDiff (a b : List (List Char)) (fromfile tofile : String) : List (List Char) :=
  let groups := getGroupedOpcodes a b 3
  if groups = [] then []
  else ("--- " ++ fromfile ++ "\n").data :: ("+++ " ++ tofile ++ "\n").data
    :: (groups.map (hunkLines a b)).flatten

/-! ## The version-control data model (`StandardVersionControl`) -/

/-- One recorded revision, the dict built by `create_version`. -/
structure Version where
  version_id : String
  timestamp : String
  file : String
  hash : String
  description : String
  active : Bool
  stable : Bool
  compatibility : List String
deriving Repr, DecidableEq

/-- One audit record appended by `_add_history`. -/
structure HistoryEntry where
  action : String
  version_id : String
  timestamp : String
  user : String
deriving Repr, DecidableEq

/-- The in-memory ledger `self.versions`: the two top-level collections of
`standards_versions.json`. -/
structure Ledger where
  versions : List Version
  history : List HistoryEntry
deriving Repr, DecidableEq

/-- The durable ledger file on disk: absent, holding a well-formed payload,
or holding bytes `json.load` rejects. -/
inductive DiskFile where
  | absent
  | valid (l : Ledger)
  | corrupt (raw : List Char)
deriving Repr, DecidableEq

/-- The state one `StandardVersionControl` instance operates on: the
in-memory ledger, the durable ledger file, the live artifact files of the
repository, and the backup directory (both directories keyed by name). -/
structure RepoState where
  mem : Ledger
  disk : DiskFile
  files : List (String × List Char)
  backups : List (String × List Char)
deriving Repr, DecidableEq

/-- The typed failures the source raises: `VersionNotFoundError`,
`VersionIntegrityError` and `FileNotFoundError`. -/
inductive VError where
  | versionNotFound
  | versionIntegrity
  | fileNotFound
deriving Repr, DecidableEq

/-- Equality of results is decidable (used to evaluate concrete instances). -/
instance {ε α : Type} [DecidableEq ε] [DecidableEq α] : DecidableEq (Except ε α) := fun x y =>
  match x, y with
  | .ok a, .ok b => if h : a = b then .isTrue (by rw [h]) else .isFalse (by simp [h])
  | .error a, .error b => if h : a = b then .isTrue (by rw [h]) else .isFalse (by simp [h])
  | .ok _, .error _ => .isFalse (by simp)
  | .error _, .ok _ => .isFalse (by simp)

/-- `_find_version`: first entry with the id, else `None`. -/
def findVersion (vs : List Version) (versionId : String) : Option Version :=
  vs.find? (fun v => v.version_id == versionId)

/-- One step of the maximum selection below. -/
def latestStep (acc : Option Version) (v : Version) : Option Version :=
  match acc with
  | none => some v
  | some m => if keyLt (verKeyD m.version_id) (verKeyD v.version_id) then some v else some m

/-- The fold Python's stable `sorted(..., key=key, reverse=True)[0]` computes:
the first element whose key no later element strictly exceeds. -/
def latestOf (vs : List Version) : Option Version := vs.foldl latestStep none

/-- `_get_latest_version`. -/
def getLatestVersion (vs : List Version) : Option Version := latestOf vs

/-- `_increment_version`: strip the `v` prefix, parse the dotted components,
pad to three, bump per `version_type` (anything besides `"major"`/`"minor"`
is treated as patch), and format with a fresh `v` prefix. -/
def incrementVersion (version versionType : String) : String :=
  match verKeyD version ++ List.replicate (3 - (verKeyD version).length) 0 with
  | major :: minor :: patch :: _ =>
    if versionType = "major" then "v" ++ natStr (major + 1) ++ ".0.0"
    else if versionType = "minor" then "v" ++ natStr major ++ "." ++ natStr (minor + 1) ++ ".0"
    else "v" ++ natStr major ++ "." ++ natStr minor ++ "." ++ natStr (patch + 1)
  | _ => ""

/-- `_verify_version_integrity`: `False` when the live file is gone or its
fresh digest differs from the recorded one. -/
def verifyVersionIntegrity (hashFn : List Char → String) (files : List (String × List Char))
    (v : Version) : Bool :=
  match fsGet files v.file with
  | none => false
  | some content => hashFn content == v.hash

/-- `_save_versions`: write the whole in-memory ledger over the durable file;
an I/O error (`persistOk = false`) is caught and only logged, leaving the
durable file as it was. -/
def saveVersions (s : RepoState) (persistOk : Bool) : RepoState :=
  if persistOk then { s with disk := .valid s.mem } else s

/-- `_backup_version`: copy the live artifact to
`backup_dir/<basename>.<version_id>`; a missing source or a failing copy
(`backupOk = false`) is logged and swallowed. -/
def backupVersion (s : RepoState) (filePath versionId : String) (backupOk : Bool) : RepoState :=
  match fsGet s.files filePath with
  | none => s
  | some content =>
    if backupOk then
      { s with backups := fsSet s.backups (basename filePath ++ "." ++ versionId) content }
    else s

/-- `_restore_from_backup`: copy the snapshot back over the live artifact;
`none` models every `return False` path (unknown id, snapshot missing). -/
def restoreFromBackup (s : RepoState) (versionId : String) : Option RepoState :=
  match findVersion s.mem.versions versionId with
  | none => none
  | some v =>
    match fsGet s.backups (basename v.file ++ "." ++ versionId) with
    | none => none
    | some content => some { s with files := fsSet s.files v.file content }

/-- `_load_versions` together with `_backup_corrupt_file`: a missing file
starts empty, a valid payload is adopted, an unparsable payload is archived
under `standards_versions.json.<stamp>.bak` in the backup directory and an
empty ledger is returned — the parse failure never escapes. -/
def loadVersions (d : DiskFile) (backups : List (String × List Char)) (stamp : String) :
    Ledger × List (String × List Char) :=
  match d with
  | .absent => (⟨[], []⟩, backups)
  | .valid l => (l, backups)
  | .corrupt raw =>
      (⟨[], []⟩, fsSet backups ("standards_versions.json." ++ stamp ++ ".bak") raw)

/-- `create_version(standard_path, description, version_type)`. -/
def createVersion (hashFn : List Char → String) (s : RepoState)
    (standardPath description versionType now user : String)
    (persistOk backupOk : Bool) : RepoState × Except VError Version :=
  match fsGet s.files standardPath with
  | none => (s, .error .fileNotFound)
  | some content =>
    let contentHash := hashFn content
    let versionId :=
      match getLatestVersion s.mem.versions with
      | some last => incrementVersion last.version_id versionType
      | none => "v1.0.0"
    let newVersion : Version :=
      ⟨versionId, now, standardPath, contentHash, description, false, false, ["v1.0.0"]⟩
    let mem1 : Ledger :=
      ⟨s.mem.versions ++ [newVersion], s.mem.history ++ [⟨"create", versionId, now, user⟩]⟩
    let s1 := saveVersions { s with mem := mem1 } persistOk
    let s2 := backupVersion s1 standardPath versionId backupOk
    (s2, .ok newVersion)

/-- `activate_version(version_id)`: missing id and failed integrity raise
before any mutation; otherwise every entry's `active` flag is rewritten to
`version_id == X`, an `activate` history entry is appended and the ledger is
flushed. -/
def activateVersion (hashFn : List Char → String) (s : RepoState)
    (versionId now user : String) (persistOk : Bool) : RepoState × Except VError Unit :=
  match findVersion s.mem.versions versionId with
  | none => (s, .error .versionNotFound)
  | some v =>
    if verifyVersionIntegrity hashFn s.files v then
      let vs := s.mem.versions.map (fun w => { w with active := w.version_id == versionId })
      let mem1 : Ledger := ⟨vs, s.mem.history ++ [⟨"activate", versionId, now, user⟩]⟩
      (saveVersions { s with mem := mem1 } persistOk, .ok ())
    else (s, .error .versionIntegrity)

/-- The in-place `version['stable'] = True` on the first entry `_find_version`
returned. -/
def setStableFirst : List Version → String → List Version
  | [], _ => []
  | v :: vs, versionId =>
    if v.version_id == versionId then { v with stable := true } :: vs
    else v :: setStableFirst vs versionId

/-- `mark_as_stable(version_id)`. -/
def markAsStable (s : RepoState) (versionId now user : String) (persistOk : Bool) :
    RepoState × Except VError Unit :=
  match findVersion s.mem.versions versionId with
  | none => (s, .error .versionNotFound)
  | some _ =>
    let mem1 : Ledger :=
      ⟨setStableFirst s.mem.versions versionId,
        s.mem.history ++ [⟨"mark_stable", versionId, now, user⟩]⟩
    (saveVersions { s with mem := mem1 } persistOk, .ok ())

/-- `get_stable_versions()`. -/
def getStableVersions (vs : List Version) : List Version := vs.filter (fun v => v.stable)

/-- `rollback_to_version(version_id)`: on failed integrity try the backup
(restoring mutates the live file even when the later steps raise); then
activate (which re-verifies and flushes), then append the `rollback` history
entry — with no further flush after that append. -/
def rollbackToVersion (hashFn : List Char → String) (s : RepoState)
    (versionId now user : String) (persistOk : Bool) : RepoState × Except VError Unit :=
  match findVersion s.mem.versions versionId with
  | none => (s, .error .versionNotFound)
  | some v =>
    match (if verifyVersionIntegrity hashFn s.files v then some s
           else restoreFromBackup s versionId) with
    | none => (s, .error .versionIntegrity)
    | some s1 =>
      match activateVersion hashFn s1 versionId now user persistOk with
      | (s2, .error e) => (s2, .error e)
      | (s2, .ok _) =>
        let mem2 : Ledger :=
          ⟨s2.mem.versions, s2.mem.history ++ [⟨"rollback", versionId, now, user⟩]⟩
        ({ s2 with mem := mem2 }, .ok ())

/-- `rollback_to_last_stable()`: `None` (and no action) when no version is
stable, else the stable entry Python's reverse-sorted-by-key pick selects,
handed to `rollback_to_version`. -/
def rollbackToLastStable (hashFn : List Char → String) (s : RepoState)
    (now user : String) (persistOk : Bool) : RepoState × Except VError (Option String) :=
  let stables := getStableVersions s.mem.versions
  match latestOf stables with
  | none => (s, .ok none)
  | some latest =>
    match rollbackToVersion hashFn s latest.version_id now user persistOk with
    | (s1, .error e) => (s1, .error e)
    | (s1, .ok _) => (s1, .ok (some latest.version_id))

/-- The dict `compare_versions` returns; `diff` is the joined diff text and
`similarity` is `ratio() * 100` as an exact rational. -/
structure CompareResult where
  version1 : String
  version2 : String
  similarity : ℚ
  additions : Nat
  deletions : Nat
  diff : String
deriving Repr, DecidableEq

/-- `compare_versions(version_id1, version_id2)`: resolve both ids, restore a
missing live file from its snapshot (ignoring failure), raise when a file is
still missing, then diff the two line lists and compute
`SequenceMatcher(None, ''.join(content1), ''.join(content2)).ratio() * 100`
plus the counts of lines starting with `'+'` and `'-'`. -/
def compareVersions (s : RepoState) (id1 id2 : String) :
    RepoState × Except VError CompareResult :=
  match findVersion s.mem.versions id1 with
  | none => (s, .error .versionNotFound)
  | some v1 =>
    match findVersion s.mem.versions id2 with
    | none => (s, .error .versionNotFound)
    | some v2 =>
      let s1 := if (fsGet s.files v1.file).isNone then (restoreFromBackup s id1).getD s else s
      let s2 := if (fsGet s1.files v2.file).isNone then (restoreFromBackup s1 id2).getD s1 else s1
      match fsGet s2.files v1.file, fsGet s2.files v2.file with
      | some c1, some c2 =>
        let content1 := readlines c1
        let content2 := readlines c2
        let diff := unifiedDiff content1 content2 ("版本 " ++ id1) ("版本 " ++ id2)
        let similarity := ratioScore content1.flatten content2.flatten * 100
        let additions := (diff.filter (fun l => l.head? = some '+')).length
        let deletions := (diff.filter (fun l => l.head? = some '-')).length
        (s2, .ok ⟨id1, id2, similarity, additions, deletions, String.mk diff.flatten⟩)
      | _, _ => (s2, .error .fileNotFound)

/-! ## Specification-side measures on matching blocks and opcodes
(used only to state and prove properties of the embedding above) -/

/-- The cursor discipline of a block list: blocks start at or after the
cursor in both sequences, are non-empty, advance the cursor, and end within
`(ahi, bhi)`. -/
def blocksLE : Nat → Nat → List MatchBlock → Nat → Nat → Prop
  | ci, cj, [], ahi, bhi => ci ≤ ahi ∧ cj ≤ bhi
  | ci, cj, m :: rest, ahi, bhi =>
      ci ≤ m.i ∧ cj ≤ m.j ∧ 1 ≤ m.size ∧ blocksLE (m.i + m.size) (m.j + m.size) rest ahi bhi

/-- No two consecutive blocks are adjacent in both sequences (the guarantee
of the collapsing loop of `get_matching_blocks`). -/
def noAdjacent : List MatchBlock → Prop
  | [] => True
  | [_] => True
  | m :: m' :: rest => ¬(m.i + m.size = m'.i ∧ m.j + m.size = m'.j) ∧ noAdjacent (m' :: rest)

/-- Total size of inserted `b`-ranges over a list of opcodes. -/
def insSum (ops : List Opcode) : Nat :=
  (ops.map (fun c => if c.tag = .insert ∨ c.tag = .replace then c.j2 - c.j1 else 0)).sum

/-- Total size of deleted `a`-ranges over a list of opcodes. -/
def delSum (ops : List Opcode) : Nat :=
  (ops.map (fun c => if c.tag = .delete ∨ c.tag = .replace then c.i2 - c.i1 else 0)).sum

/-- Sanity bounds on the non-`equal` opcodes (their ranges are real slices). -/
def opsValidNE (la lb : Nat) (ops : List Opcode) : Prop :=
  ∀ c ∈ ops, c.tag ≠ .equal → (c.i1 ≤ c.i2 ∧ c.i2 ≤ la ∧ c.j1 ≤ c.j2 ∧ c.j2 ≤ lb)

/-- Lines beginning with `'+'` (the `additions` count of `compare_versions`). -/
def plusLines (ls : List (List Char)) : Nat := (ls.filter (fun l => l.head? = some '+')).length

/-- Lines beginning with `'-'` (the `deletions` count of `compare_versions`). -/
def minusLines (ls : List (List Char)) : Nat := (ls.filter (fun l => l.head? = some '-')).length

/-- The running-best bound: the best block lies within the ranges. -/
def bestInv (alo ahi blo bhi : Nat) (st : FlmSt) : Prop :=
  alo ≤ st.besti ∧ blo ≤ st.bestj ∧ st.besti + st.bestsize ≤ ahi ∧ st.bestj + st.bestsize ≤ bhi

/-- Position `j` of `b` still has its `b2j` entry (non-popular element). -/
def inB2j {α : Type} [DecidableEq α] (b2j : List (α × List Nat)) (b : List α) (j : Nat) : Bool :=
  match b[j]? with
  | some e => decide (j ∈ b2jGet b2j e)
  | none => false

/-- Length of the maximal run of in-index positions ending at `j` (the
diagonal chain length of the matcher's dynamic programming on `(x, x)`). -/
def diagRun {α : Type} [DecidableEq α] (b2j : List (α × List Nat)) (b : List α) : Nat → Nat
  | 0 => if inB2j b2j b 0 then 1 else 0
  | j + 1 => if inB2j b2j b (j + 1) then diagRun b2j b j + 1 else 0

/-- Total size of a list of matching blocks (the value `ratio` sums). -/
def sumSizes (l : List MatchBlock) : Nat := (l.map MatchBlock.size).sum

/-- The similarity field of a `compare_versions` result, when it succeeded. -/
def cmpSimilarity (p : RepoState × Except VError CompareResult) : Option ℚ :=
  match p.2 with
  | .ok r => some r.similarity
  | .error _ => none

/-- The additions count of a `compare_versions` result, when it succeeded. -/
def cmpAdditions (p : RepoState × Except VError CompareResult) : Option Nat :=
  match p.2 with
  | .ok r => some r.additions
  | .error _ => none

/-- The deletions count of a `compare_versions` result, when it succeeded. -/
def cmpDeletions (p : RepoState × Except VError CompareResult) : Option Nat :=
  match p.2 with
  | .ok r => some r.deletions
  | .error _ => none

/-- `j ∈ b2j[a[i]]`: position `j` of `b` is listed in row `i` of the matcher's
dynamic programming (always over `b = a` below). -/
def memRowB {α : Type} [DecidableEq α] (b2j : List (α × List Nat)) (a : List α)
    (i j : Nat) : Bool :=
  match a[i]? with
  | some e => decide (j ∈ b2jGet b2j e)
  | none => false

/-- The value `j2len[j]` holds after row `i` of the dynamic programming of
`find_longest_match(0, len(a), 0, len(a))` on the pair `(a, a)`: the length of
the run of listed matches ending at `(i, j)`. -/
def mlen {α : Type} [DecidableEq α] (b2j : List (α × List Nat)) (a : List α) :
    Nat → Nat → Nat
  | 0, j => if memRowB b2j a 0 j then 1 else 0
  | i + 1, j =>
    if memRowB b2j a (i + 1) j then (if j = 0 then 1 else mlen b2j a i (j - 1) + 1) else 0

/-! ## Utility lemmas -/

theorem fsGet_fsSet_self {β : Type} (m : List (String × β)) (k : String) (v : β) :
    fsGet (fsSet m k v) k = some v := by
  induction m with
  | nil => simp [fsGet, fsSet, List.find?]
  | cons p rest ih =>
    by_cases h : p.1 == k
    · simp [fsSet, h, fsGet, List.find?]
    · simpa [fsSet, h, fsGet, List.find?] using ih

theorem fsGet_fsSet_ne {β : Type} (m : List (String × β)) (k k' : String) (v : β)
    (h : k ≠ k') : fsGet (fsSet m k v) k' = fsGet m k' := by
  have hkk : (k == k') = false := by simpa using h
  induction m with
  | nil => simp [fsGet, fsSet, List.find?, hkk]
  | cons p rest ih =>
    by_cases hp : p.1 == k
    · have hpk : p.1 = k := by simpa using hp
      simp [fsSet, hp, fsGet, List.find?, hkk, hpk]
    · by_cases hq : p.1 == k'
      · simp [fsSet, hp, fsGet, List.find?, hq]
      · simpa [fsSet, hp, fsGet, List.find?, hq] using ih

theorem find?_append_of_none {α : Type} (p : α → Bool) (l1 l2 : List α)
    (h : ∀ x ∈ l1, p x = false) : (l1 ++ l2).find? p = l2.find? p := by
  induction l1 with
  | nil => simp
  | cons a as ih =>
    have ha := h a (by simp)
    simp only [List.cons_append, List.find?]
    rw [ha]
    exact ih (fun x hx => h x (by simp [hx]))

/-! digits of a natural number and the `int` round-trip -/

theorem digitChar_isDigit (n : Nat) (h : n < 10) : (digitChar n).isDigit = true := by
  interval_cases n <;> decide

theorem digitChar_toNat (n : Nat) (h : n < 10) : (digitChar n).toNat - 48 = n := by
  interval_cases n <;> decide

theorem digitChar_ne_dot (n : Nat) (h : n < 10) : digitChar n ≠ '.' := by
  interval_cases n <;> decide

theorem digitChar_ne_v (n : Nat) (h : n < 10) : digitChar n ≠ 'v' := by
  interval_cases n <;> decide

theorem natDigitsF_irrel (fuel : Nat) :
    ∀ fuel' n acc, n < fuel → n < fuel' → natDigitsF fuel n acc = natDigitsF fuel' n acc := by
  induction fuel with
  | zero => intro fuel' n acc h _; omega
  | succ fuel ih =>
    intro fuel' n acc h h'
    cases fuel' with
    | zero => omega
    | succ fuel' =>
      rw [natDigitsF, natDigitsF]
      by_cases h10 : n < 10
      · simp [h10]
      · simp only [h10, if_false]
        exact ih fuel' (n / 10) _ (by omega) (by omega)

theorem natDigitsF_append (fuel : Nat) :
    ∀ n acc, natDigitsF fuel n acc = natDigitsF fuel n [] ++ acc := by
  induction fuel with
  | zero => intro n acc; rfl
  | succ fuel ih =>
    intro n acc
    rw [natDigitsF, natDigitsF]
    by_cases h10 : n < 10
    · simp [h10]
    · simp only [h10, if_false]
      rw [ih (n / 10) (digitChar (n % 10) :: acc), ih (n / 10) [digitChar (n % 10)]]
      simp

theorem natDigits_eq (n : Nat) (h : ¬ n < 10) :
    natDigits n = natDigits (n / 10) ++ [digitChar (n % 10)] := by
  unfold natDigits
  rw [natDigitsF]
  simp only [h, if_false]
  rw [natDigitsF_irrel n (n / 10 + 1) (n / 10) _ (by omega) (by omega)]
  rw [natDigitsF_append]

theorem natDigits_lt (n : Nat) (h : n < 10) : natDigits n = [digitChar n] := by
  unfold natDigits
  rw [natDigitsF]
  simp [h]

theorem natDigits_ne_nil (n : Nat) : natDigits n ≠ [] := by
  induction n using Nat.strong_induction_on with
  | _ n ih =>
    by_cases h : n < 10
    · simp [natDigits_lt n h]
    · simp [natDigits_eq n h]

theorem natDigits_all_digit (n : Nat) : ∀ c ∈ natDigits n, c.isDigit = true := by
  induction n using Nat.strong_induction_on with
  | _ n ih =>
    by_cases h : n < 10
    · simp [natDigits_lt n h, digitChar_isDigit n h]
    · intro c hc
      rw [natDigits_eq n h] at hc
      rcases List.mem_append.mp hc with hc | hc
      · exact ih _ (Nat.div_lt_self (by omega) (by omega)) c hc
      · simp at hc
        subst hc
        exact digitChar_isDigit _ (Nat.mod_lt _ (by omega))

theorem digitsVal_append (xs ys : List Char) (b : Nat) :
    (xs ++ ys).foldl (fun n c => n * 10 + (c.toNat - 48)) b
      = ys.foldl (fun n c => n * 10 + (c.toNat - 48)) (xs.foldl (fun n c => n * 10 + (c.toNat - 48)) b) := by
  simp [List.foldl_append]

theorem natDigits_val (n : Nat) :
    (natDigits n).foldl (fun m c => m * 10 + (c.toNat - 48)) 0 = n := by
  induction n using Nat.strong_induction_on with
  | _ n ih =>
    by_cases h : n < 10
    · simp [natDigits_lt n h, digitChar_toNat n h]
    · rw [natDigits_eq n h, digitsVal_append]
      rw [ih _ (Nat.div_lt_self (by omega) (by omega))]
      simp [digitChar_toNat _ (Nat.mod_lt _ (by omega : (0:Nat) < 10))]
      omega

theorem digitsToNat_natDigits (n : Nat) : digitsToNat (natDigits n) = some n := by
  unfold digitsToNat
  rw [if_neg (natDigits_ne_nil n)]
  rw [if_pos]
  · rw [natDigits_val]
  · rw [List.all_eq_true]
    intro c hc
    exact natDigits_all_digit n c hc

/-! split/parse round-trips for printed version ids -/

theorem splitOnChar_no_sep (sep : Char) (xs : List Char) (h : sep ∉ xs) :
    ∀ acc, splitOnChar sep xs acc = [acc.reverse ++ xs] := by
  induction xs with
  | nil => intro acc; simp [splitOnChar]
  | cons c cs ih =>
    intro acc
    have hc : ¬ c = sep := fun hq => h (by simp [hq])
    rw [splitOnChar]
    simp only [hc, if_false]
    rw [ih (fun hm => h (by simp [hm]))]
    simp

theorem splitOnChar_sep_append (sep : Char) (xs rest : List Char) (h : sep ∉ xs) :
    ∀ acc, splitOnChar sep (xs ++ sep :: rest) acc
      = (acc.reverse ++ xs) :: splitOnChar sep rest [] := by
  induction xs with
  | nil => intro acc; simp [splitOnChar]
  | cons c cs ih =>
    intro acc
    have hc : ¬ c = sep := fun hq => h (by simp [hq])
    simp only [List.cons_append]
    rw [splitOnChar]
    simp only [hc, if_false]
    rw [ih (fun hm => h (by simp [hm]))]
    simp

theorem dot_not_mem_natDigits (n : Nat) : '.' ∉ natDigits n := by
  intro h
  have := natDigits_all_digit n '.' h
  simp at this

theorem verKey_printed (a b c : Nat) :
    verKey ("v" ++ natStr a ++ "." ++ natStr b ++ "." ++ natStr c) = some [a, b, c] := by
  have hdata : ("v" ++ natStr a ++ "." ++ natStr b ++ "." ++ natStr c).data
      = 'v' :: (natDigits a ++ '.' :: (natDigits b ++ '.' :: natDigits c)) := by
    simp [natStr, String.data_append]
  unfold verKey parseKeyChars
  rw [hdata]
  have hdrop : ('v' :: (natDigits a ++ '.' :: (natDigits b ++ '.' :: natDigits c))).dropWhile (fun c => c = 'v')
      = natDigits a ++ '.' :: (natDigits b ++ '.' :: natDigits c) := by
    obtain ⟨d, ds, hds⟩ : ∃ d ds, natDigits a = d :: ds := by
      cases hh : natDigits a with
      | nil => exact absurd hh (natDigits_ne_nil a)
      | cons d ds => exact ⟨d, ds, rfl⟩
    have hdd : ¬ d = 'v' := by
      have hdig : d.isDigit = true := natDigits_all_digit a d (by simp [hds])
      intro hv
      rw [hv] at hdig
      simp at hdig
    rw [hds]
    simp only [List.cons_append]
    rw [List.dropWhile_cons, if_pos (by simp), List.dropWhile_cons, if_neg (by simp [hdd])]
  rw [hdrop]
  rw [splitOnChar_sep_append '.' (natDigits a) _ (dot_not_mem_natDigits a)]
  rw [splitOnChar_sep_append '.' (natDigits b) _ (dot_not_mem_natDigits b)]
  rw [splitOnChar_no_sep '.' (natDigits c) (dot_not_mem_natDigits c)]
  simp [List.mapM, List.mapM.loop, digitsToNat_natDigits]

/-! the lexicographic order `keyLt` (Python list comparison) -/

theorem keyLt_irrefl (x : List Nat) : keyLt x x = false := by
  induction x with
  | nil => rfl
  | cons a as ih => simp [keyLt, ih]

theorem keyLt_cons (a b : Nat) (as bs : List Nat) :
    keyLt (a :: as) (b :: bs) = if a < b then true else if b < a then false else keyLt as bs := by
  rw [keyLt]

theorem keyLt_trans (x y z : List Nat) (h1 : keyLt x y = true) (h2 : keyLt y z = true) :
    keyLt x z = true := by
  induction x generalizing y z with
  | nil =>
    cases y with
    | nil => simp [keyLt] at h1
    | cons b bs =>
      cases z with
      | nil => simp [keyLt] at h2
      | cons c cs => simp [keyLt]
  | cons a as ih =>
    cases y with
    | nil => simp [keyLt] at h1
    | cons b bs =>
      cases z with
      | nil => simp [keyLt] at h2
      | cons c cs =>
        rw [keyLt_cons] at h1 h2 ⊢
        rcases Nat.lt_trichotomy a b with hab | hab | hab
        · rcases Nat.lt_trichotomy b c with hbc | hbc | hbc
          · rw [if_pos (by omega)]
          · subst hbc; rw [if_pos hab]
          · rw [if_neg (by omega), if_pos hbc] at h2; exact absurd h2 (by simp)
        · subst hab
          rw [if_neg (by omega), if_neg (by omega)] at h1
          rcases Nat.lt_trichotomy a c with hac | hac | hac
          · rw [if_pos hac]
          · subst hac
            rw [if_neg (by omega), if_neg (by omega)] at h2 ⊢
            exact ih bs cs h1 h2
          · rw [if_neg (by omega), if_pos hac] at h2; exact absurd h2 (by simp)
        · rw [if_neg (by omega), if_pos hab] at h1; exact absurd h1 (by simp)

theorem keyLt_total (x y : List Nat) (h : keyLt x y = false) :
    keyLt y x = true ∨ x = y := by
  induction x generalizing y with
  | nil =>
    cases y with
    | nil => right; rfl
    | cons b bs => simp [keyLt] at h
  | cons a as ih =>
    cases y with
    | nil => left; rw [keyLt]
    | cons b bs =>
      rw [keyLt_cons] at h
      rcases Nat.lt_trichotomy a b with hab | hab | hab
      · rw [if_pos hab] at h; exact absurd h (by simp)
      · subst hab
        rw [if_neg (by omega), if_neg (by omega)] at h
        rcases ih bs h with h' | h'
        · left; rw [keyLt_cons, if_neg (by omega), if_neg (by omega)]; exact h'
        · right; rw [h']
      · left; rw [keyLt_cons, if_pos hab]

/-! the fold behind `sorted(vs, key=..., reverse=True)[0]` -/

theorem latest_fold_mem :
    ∀ (vs : List Version) (acc : Option Version) (m : Version),
      vs.foldl latestStep acc = some m → acc = some m ∨ m ∈ vs := by
  intro vs
  induction vs with
  | nil => intro acc m hm; left; simpa using hm
  | cons v rest ih =>
    intro acc m hm
    simp only [List.foldl_cons] at hm
    rcases ih (latestStep acc v) m hm with h' | h'
    · rcases acc with _ | w
      · right; simp only [latestStep] at h'; simp at h'; simp [h']
      · simp only [latestStep] at h'
        by_cases hk : keyLt (verKeyD w.version_id) (verKeyD v.version_id)
        · rw [if_pos hk] at h'; right; simp at h'; simp [h']
        · rw [if_neg hk] at h'; left; exact h'
    · right; simp [h']

theorem latestOf_mem (vs : List Version) (m : Version) (h : latestOf vs = some m) : m ∈ vs := by
  rcases latest_fold_mem vs none m h with h' | h'
  · simp at h'
  · exact h'

theorem latest_fold_max :
    ∀ (vs : List Version) (acc : Option Version) (m : Version),
      vs.foldl latestStep acc = some m →
      (∀ w ∈ vs, keyLt (verKeyD m.version_id) (verKeyD w.version_id) = false)
        ∧ (∀ w, acc = some w → keyLt (verKeyD m.version_id) (verKeyD w.version_id) = false) := by
  intro vs
  induction vs with
  | nil =>
    intro acc m hm
    simp only [List.foldl_nil] at hm
    refine ⟨by simp, ?_⟩
    intro w hw
    rw [hm] at hw
    have : w = m := by simpa using hw.symm
    rw [this, keyLt_irrefl]
  | cons v rest ih =>
    intro acc m hm
    simp only [List.foldl_cons] at hm
    obtain ⟨hrest, hacc'⟩ := ih (latestStep acc v) m hm
    have hmv : keyLt (verKeyD m.version_id) (verKeyD v.version_id) = false := by
      rcases acc with _ | u
      · exact hacc' v (by simp [latestStep])
      · by_cases hk : keyLt (verKeyD u.version_id) (verKeyD v.version_id)
        · exact hacc' v (by simp [latestStep, hk])
        · have hmu := hacc' u (by simp [latestStep, hk])
          rcases keyLt_total _ _ (by simpa using hk) with hvu | hvu
          · by_contra hq
            simp only [Bool.not_eq_false] at hq
            have := keyLt_trans _ _ _ hq hvu
            rw [this] at hmu
            exact absurd hmu (by simp)
          · rw [← hvu]; exact hmu
    refine ⟨?_, ?_⟩
    · intro w hw
      rcases List.mem_cons.mp hw with hw | hw
      · rw [hw]; exact hmv
      · exact hrest w hw
    · intro w hw
      rcases acc with _ | u
      · simp at hw
      · have hwu : w = u := by simpa using hw.symm
        subst hwu
        by_cases hk : keyLt (verKeyD w.version_id) (verKeyD v.version_id)
        · by_contra hq
          simp only [Bool.not_eq_false] at hq
          have := keyLt_trans _ _ _ hq hk
          rw [this] at hmv
          exact absurd hmv (by simp)
        · exact hacc' w (by simp [latestStep, hk])

theorem latestOf_max (vs : List Version) (m : Version) (h : latestOf vs = some m) :
    ∀ w ∈ vs, keyLt (verKeyD m.version_id) (verKeyD w.version_id) = false :=
  (latest_fold_max vs none m h).1

theorem latestOf_isSome (vs : List Version) (h : vs ≠ []) : ∃ m, latestOf vs = some m := by
  have : ∀ (vs : List Version) (w : Version), ∃ m, vs.foldl latestStep (some w) = some m := by
    intro vs
    induction vs with
    | nil => intro w; exact ⟨w, rfl⟩
    | cons v rest ih =>
      intro w
      simp only [List.foldl_cons]
      by_cases hk : keyLt (verKeyD w.version_id) (verKeyD v.version_id)
      · simpa [latestStep, hk] using ih v
      · simpa [latestStep, hk] using ih w
  cases vs with
  | nil => exact absurd rfl h
  | cons v rest =>
    unfold latestOf
    simp only [List.foldl_cons]
    simpa [latestStep] using this rest v

/-! `_increment_version` strictly increases the key -/

theorem splitOnChar_ne_nil (sep : Char) (cs : List Char) (acc : List Char) :
    splitOnChar sep cs acc ≠ [] := by
  induction cs generalizing acc with
  | nil => simp [splitOnChar]
  | cons c cs ih =>
    rw [splitOnChar]
    by_cases h : c = sep
    · simp [h]
    · simp only [h, if_false]
      exact ih (c :: acc)

theorem mapM_some_ne_nil (f : List Char → Option Nat) (l : List (List Char)) (r : List Nat)
    (hl : l ≠ []) (h : l.mapM f = some r) : r ≠ [] := by
  cases l with
  | nil => exact absurd rfl hl
  | cons x xs =>
    rw [List.mapM_cons] at h
    cases hx : f x with
    | none => rw [hx] at h; simp at h
    | some y =>
      rw [hx] at h
      cases hxs : xs.mapM f with
      | none => rw [hxs] at h; simp at h
      | some ys =>
        rw [hxs] at h
        simp at h
        rw [← h]
        simp

theorem verKey_ne_nil (s : String) (L : List Nat) (h : verKey s = some L) : L ≠ [] := by
  unfold verKey parseKeyChars at h
  exact mapM_some_ne_nil _ _ _ (splitOnChar_ne_nil _ _ _) h

theorem point_zero_zero : ∀ s : String, s ++ ".0.0" = s ++ "." ++ natStr 0 ++ "." ++ natStr 0 := by
  intro s
  have h0 : natStr 0 = "0" := by decide
  rw [h0, String.append_assoc, String.append_assoc, String.append_assoc]
  rfl

theorem point_zero : ∀ s : String, s ++ ".0" = s ++ "." ++ natStr 0 := by
  intro s
  have h0 : natStr 0 = "0" := by decide
  rw [h0, String.append_assoc]
  rfl

theorem incrementVersion_gt (v t : String) (L : List Nat) (hL : verKey v = some L) :
    ∃ K, verKey (incrementVersion v t) = some K ∧ keyLt L K = true := by
  have hD : verKeyD v = L := by simp [verKeyD, hL]
  have hne := verKey_ne_nil v L hL
  rcases L with _ | ⟨m, _ | ⟨n, _ | ⟨p, rest⟩⟩⟩
  · exact absurd rfl hne
  · have hpad : verKeyD v ++ List.replicate (3 - (verKeyD v).length) 0 = [m, 0, 0] := by
      rw [hD]; rfl
    by_cases hmaj : t = "major"
    · refine ⟨[m + 1, 0, 0], ?_, ?_⟩
      · simp only [incrementVersion, hpad]
        rw [if_pos hmaj, point_zero_zero, verKey_printed]
      · rw [keyLt_cons, if_pos (by omega)]
    · by_cases hmin : t = "minor"
      · refine ⟨[m, 0 + 1, 0], ?_, ?_⟩
        · simp only [incrementVersion, hpad]
          rw [if_neg hmaj, if_pos hmin, point_zero, verKey_printed]
        · rw [keyLt_cons, if_neg (by omega), if_neg (by omega)]
          rfl
      · refine ⟨[m, 0, 0 + 1], ?_, ?_⟩
        · simp only [incrementVersion, hpad]
          rw [if_neg hmaj, if_neg hmin, verKey_printed]
        · rw [keyLt_cons, if_neg (by omega), if_neg (by omega)]
          rfl
  · have hpad : verKeyD v ++ List.replicate (3 - (verKeyD v).length) 0 = [m, n, 0] := by
      rw [hD]; rfl
    by_cases hmaj : t = "major"
    · refine ⟨[m + 1, 0, 0], ?_, ?_⟩
      · simp only [incrementVersion, hpad]
        rw [if_pos hmaj, point_zero_zero, verKey_printed]
      · rw [keyLt_cons, if_pos (by omega)]
    · by_cases hmin : t = "minor"
      · refine ⟨[m, n + 1, 0], ?_, ?_⟩
        · simp only [incrementVersion, hpad]
          rw [if_neg hmaj, if_pos hmin, point_zero, verKey_printed]
        · rw [keyLt_cons, if_neg (by omega), if_neg (by omega)]
          rw [keyLt_cons, if_pos (by omega)]
      · refine ⟨[m, n, 0 + 1], ?_, ?_⟩
        · simp only [incrementVersion, hpad]
          rw [if_neg hmaj, if_neg hmin, verKey_printed]
        · rw [keyLt_cons, if_neg (by omega), if_neg (by omega)]
          rw [keyLt_cons, if_neg (by omega), if_neg (by omega)]
          rfl
  · have hpad : verKeyD v ++ List.replicate (3 - (verKeyD v).length) 0
        = m :: n :: p :: (rest ++ List.replicate (3 - (verKeyD v).length) 0) := by
      rw [hD]; simp
    by_cases hmaj : t = "major"
    · refine ⟨[m + 1, 0, 0], ?_, ?_⟩
      · simp only [incrementVersion, hpad]
        rw [if_pos hmaj, point_zero_zero, verKey_printed]
      · rw [keyLt_cons, if_pos (by omega)]
    · by_cases hmin : t = "minor"
      · refine ⟨[m, n + 1, 0], ?_, ?_⟩
        · simp only [incrementVersion, hpad]
          rw [if_neg hmaj, if_pos hmin, point_zero, verKey_printed]
        · rw [keyLt_cons, if_neg (by omega), if_neg (by omega)]
          rw [keyLt_cons, if_pos (by omega)]
      · refine ⟨[m, n, p + 1], ?_, ?_⟩
        · simp only [incrementVersion, hpad]
          rw [if_neg hmaj, if_neg hmin, verKey_printed]
        · rw [keyLt_cons, if_neg (by omega), if_neg (by omega)]
          rw [keyLt_cons, if_neg (by omega), if_neg (by omega)]
          rw [keyLt_cons, if_pos (by omega)]

/-! `readlines` reassembles to the original content -/

theorem splitKeepNl_flatten (cs : List Char) :
    ∀ acc, (splitKeepNl cs acc).flatten = acc.reverse ++ cs := by
  induction cs with
  | nil =>
    intro acc
    cases acc with
    | nil => rfl
    | cons x xs => simp [splitKeepNl]
  | cons c cs ih =>
    intro acc
    rw [splitKeepNl]
    by_cases h : c = '\n'
    · simp only [h, if_pos rfl]
      simp [ih []]
    · simp only [h, if_false]
      rw [ih (c :: acc)]
      simp

theorem readlines_flatten (cs : List Char) : (readlines cs).flatten = cs := by
  unfold readlines
  rw [splitKeepNl_flatten]
  rfl

/-! ## Structural lemmas about the operations -/

theorem saveVersions_mem (s : RepoState) (p : Bool) : (saveVersions s p).mem = s.mem := by
  cases p <;> simp [saveVersions]

theorem saveVersions_files (s : RepoState) (p : Bool) : (saveVersions s p).files = s.files := by
  cases p <;> simp [saveVersions]

theorem saveVersions_backups (s : RepoState) (p : Bool) : (saveVersions s p).backups = s.backups := by
  cases p <;> simp [saveVersions]

theorem saveVersions_disk_true (s : RepoState) : (saveVersions s true).disk = .valid s.mem := by
  simp [saveVersions]

theorem saveVersions_disk_false (s : RepoState) : (saveVersions s false).disk = s.disk := by
  simp [saveVersions]

theorem backupVersion_mem (s : RepoState) (p v : String) (ok : Bool) :
    (backupVersion s p v ok).mem = s.mem := by
  unfold backupVersion
  cases fsGet s.files p <;> [rfl; (cases ok <;> simp)]

theorem backupVersion_files (s : RepoState) (p v : String) (ok : Bool) :
    (backupVersion s p v ok).files = s.files := by
  unfold backupVersion
  cases fsGet s.files p <;> [rfl; (cases ok <;> simp)]

theorem backupVersion_disk (s : RepoState) (p v : String) (ok : Bool) :
    (backupVersion s p v ok).disk = s.disk := by
  unfold backupVersion
  cases fsGet s.files p <;> [rfl; (cases ok <;> simp)]

theorem restoreFromBackup_mem (s : RepoState) (id : String) (s' : RepoState)
    (h : restoreFromBackup s id = some s') :
    s'.mem = s.mem ∧ s'.disk = s.disk ∧ s'.backups = s.backups := by
  unfold restoreFromBackup at h
  split at h
  · simp at h
  · split at h
    · simp at h
    · simp only [Option.some.injEq] at h
      rw [← h]
      exact ⟨rfl, rfl, rfl⟩

/-- The shape of a successful `create_version`. -/
theorem createVersion_ok (hashFn : List Char → String) (s : RepoState)
    (path desc vt now user : String) (pOk bOk : Bool) (content : List Char)
    (h : fsGet s.files path = some content) :
    (createVersion hashFn s path desc vt now user pOk bOk).2
        = .ok ⟨(match getLatestVersion s.mem.versions with
                | some last => incrementVersion last.version_id vt
                | none => "v1.0.0"), now, path, hashFn content, desc, false, false, ["v1.0.0"]⟩
      ∧ (createVersion hashFn s path desc vt now user pOk bOk).1.mem.versions
        = s.mem.versions
          ++ [⟨(match getLatestVersion s.mem.versions with
                | some last => incrementVersion last.version_id vt
                | none => "v1.0.0"), now, path, hashFn content, desc, false, false, ["v1.0.0"]⟩]
      ∧ (createVersion hashFn s path desc vt now user pOk bOk).1.mem.history
        = s.mem.history
          ++ [⟨"create", (match getLatestVersion s.mem.versions with
                | some last => incrementVersion last.version_id vt
                | none => "v1.0.0"), now, user⟩] := by
  unfold createVersion
  rw [h]
  refine ⟨rfl, ?_, ?_⟩ <;>
    simp [backupVersion_mem, saveVersions_mem]

/-- `create_version` raises `FileNotFoundError` without touching anything when
the artifact is missing. -/
theorem createVersion_missing (hashFn : List Char → String) (s : RepoState)
    (path desc vt now user : String) (pOk bOk : Bool)
    (h : fsGet s.files path = none) :
    createVersion hashFn s path desc vt now user pOk bOk = (s, .error .fileNotFound) := by
  unfold createVersion
  rw [h]

/-- `activate_version` on a missing id. -/
theorem activateVersion_notFound (hashFn : List Char → String) (s : RepoState)
    (id now user : String) (pOk : Bool) (h : findVersion s.mem.versions id = none) :
    activateVersion hashFn s id now user pOk = (s, .error .versionNotFound) := by
  unfold activateVersion
  rw [h]

/-- `activate_version` on failed integrity: raises before any mutation. -/
theorem activateVersion_badIntegrity (hashFn : List Char → String) (s : RepoState)
    (id now user : String) (pOk : Bool) (v : Version)
    (hf : findVersion s.mem.versions id = some v)
    (hv : verifyVersionIntegrity hashFn s.files v = false) :
    activateVersion hashFn s id now user pOk = (s, .error .versionIntegrity) := by
  simp [activateVersion, hf, hv]

/-- The successful branch of `activate_version`. -/
theorem activateVersion_ok_shape (hashFn : List Char → String) (s : RepoState)
    (id now user : String) (pOk : Bool) (v : Version)
    (hf : findVersion s.mem.versions id = some v)
    (hv : verifyVersionIntegrity hashFn s.files v = true) :
    activateVersion hashFn s id now user pOk
      = (saveVersions { s with mem :=
          ⟨s.mem.versions.map (fun w => { w with active := w.version_id == id }),
            s.mem.history ++ [⟨"activate", id, now, user⟩]⟩ } pOk, .ok ()) := by
  simp [activateVersion, hf, hv]

/-- `activate_version` leaves the state untouched whenever it raises. -/
theorem activateVersion_error_state (hashFn : List Char → String) (s : RepoState)
    (id now user : String) (pOk : Bool) (e : VError)
    (h : (activateVersion hashFn s id now user pOk).2 = .error e) :
    (activateVersion hashFn s id now user pOk).1 = s := by
  cases hf : findVersion s.mem.versions id with
  | none => rw [activateVersion_notFound hashFn s id now user pOk hf]
  | some v =>
    by_cases hv : verifyVersionIntegrity hashFn s.files v
    · rw [activateVersion_ok_shape hashFn s id now user pOk v hf hv] at h
      simp at h
    · rw [activateVersion_badIntegrity hashFn s id now user pOk v hf (by simpa using hv)]

/-- `activate_version` succeeds exactly when the id resolves and the stored
hash matches a fresh hash of the live file. -/
theorem activateVersion_ok_iff (hashFn : List Char → String) (s : RepoState)
    (id now user : String) (pOk : Bool) (v : Version)
    (hf : findVersion s.mem.versions id = some v) :
    (activateVersion hashFn s id now user pOk).2 = .ok ()
      ↔ verifyVersionIntegrity hashFn s.files v = true := by
  constructor
  · intro h
    by_cases hv : verifyVersionIntegrity hashFn s.files v
    · exact hv
    · rw [activateVersion_badIntegrity hashFn s id now user pOk v hf (by simpa using hv)] at h
      simp at h
  · intro hv
    rw [activateVersion_ok_shape hashFn s id now user pOk v hf hv]

/-- The successful branch of `mark_as_stable`. -/
theorem markAsStable_ok_shape (s : RepoState) (id now user : String) (pOk : Bool) (v : Version)
    (hf : findVersion s.mem.versions id = some v) :
    markAsStable s id now user pOk
      = (saveVersions { s with mem :=
          ⟨setStableFirst s.mem.versions id,
            s.mem.history ++ [⟨"mark_stable", id, now, user⟩]⟩ } pOk, .ok ()) := by
  simp [markAsStable, hf]

/-- The shape of a successful `rollback_to_version`: some intermediate state
with the same ledger (the live file possibly restored) is activated, and then
the `rollback` history entry is appended in memory with no further flush. -/
theorem rollbackToVersion_ok (hashFn : List Char → String) (s : RepoState)
    (id now user : String) (pOk : Bool)
    (h : (rollbackToVersion hashFn s id now user pOk).2 = .ok ()) :
    ∃ s1, s1.mem = s.mem
      ∧ (activateVersion hashFn s1 id now user pOk).2 = .ok ()
      ∧ (rollbackToVersion hashFn s id now user pOk).1.mem.versions
          = (activateVersion hashFn s1 id now user pOk).1.mem.versions
      ∧ (rollbackToVersion hashFn s id now user pOk).1.mem.history
          = (activateVersion hashFn s1 id now user pOk).1.mem.history ++ [⟨"rollback", id, now, user⟩]
      ∧ (rollbackToVersion hashFn s id now user pOk).1.disk
          = (activateVersion hashFn s1 id now user pOk).1.disk := by
  unfold rollbackToVersion at h ⊢
  split at h
  · simp at h
  · rename_i v hf
    split at h
    · simp at h
    · rename_i s1 hrest
      have hs1mem : s1.mem = s.mem := by
        by_cases hv : verifyVersionIntegrity hashFn s.files v
        · rw [if_pos hv] at hrest
          cases hrest
          rfl
        · rw [if_neg hv] at hrest
          exact (restoreFromBackup_mem s id s1 hrest).1
      refine ⟨s1, hs1mem, ?_⟩
      split at h
      · simp at h
      · rename_i s2 u hact
        rw [hact]
        exact ⟨rfl, rfl, rfl, rfl⟩

/-- `rollback_to_last_stable` with no stable version: plain `None`, no error,
no state change. -/
theorem rollbackToLastStable_empty (hashFn : List Char → String) (s : RepoState)
    (now user : String) (pOk : Bool)
    (h : getStableVersions s.mem.versions = []) :
    rollbackToLastStable hashFn s now user pOk = (s, .ok none) := by
  unfold rollbackToLastStable
  rw [h]
  rfl

/-- `rollback_to_last_stable` with stable versions present delegates to
`rollback_to_version` on the greatest-key stable entry. -/
theorem rollbackToLastStable_some (hashFn : List Char → String) (s : RepoState)
    (now user : String) (pOk : Bool)
    (hne : getStableVersions s.mem.versions ≠ []) :
    ∃ latest, latestOf (getStableVersions s.mem.versions) = some latest
      ∧ latest ∈ getStableVersions s.mem.versions
      ∧ (∀ w ∈ getStableVersions s.mem.versions,
          keyLt (verKeyD latest.version_id) (verKeyD w.version_id) = false)
      ∧ rollbackToLastStable hashFn s now user pOk
          = (match rollbackToVersion hashFn s latest.version_id now user pOk with
             | (s1, .error e) => (s1, .error e)
             | (s1, .ok _) => (s1, .ok (some latest.version_id))) := by
  obtain ⟨latest, hl⟩ := latestOf_isSome _ hne
  refine ⟨latest, hl, latestOf_mem _ _ hl, latestOf_max _ _ hl, ?_⟩
  simp only [rollbackToLastStable, hl]

/-- Destructing a successful activation. -/
theorem activateVersion_ok_dest (hashFn : List Char → String) (s : RepoState)
    (id now user : String) (pOk : Bool)
    (h : (activateVersion hashFn s id now user pOk).2 = .ok ()) :
    ∃ v, findVersion s.mem.versions id = some v
      ∧ verifyVersionIntegrity hashFn s.files v = true
      ∧ (activateVersion hashFn s id now user pOk).1
        = saveVersions { s with mem :=
            ⟨s.mem.versions.map (fun w => { w with active := w.version_id == id }),
              s.mem.history ++ [⟨"activate", id, now, user⟩]⟩ } pOk := by
  cases hf : findVersion s.mem.versions id with
  | none => rw [activateVersion_notFound hashFn s id now user pOk hf] at h; simp at h
  | some v =>
    by_cases hv : verifyVersionIntegrity hashFn s.files v
    · exact ⟨v, rfl, hv, by rw [activateVersion_ok_shape hashFn s id now user pOk v hf hv]⟩
    · rw [activateVersion_badIntegrity hashFn s id now user pOk v hf (by simpa using hv)] at h
      simp at h

/-- The versions list after `rollback_to_version`: unchanged on every raise,
otherwise exactly the activation rewrite. -/
theorem rollbackToVersion_versions_cases (hashFn : List Char → String) (s : RepoState)
    (id now user : String) (pOk : Bool) :
    (rollbackToVersion hashFn s id now user pOk).1.mem.versions = s.mem.versions
      ∨ (rollbackToVersion hashFn s id now user pOk).1.mem.versions
        = s.mem.versions.map (fun w => { w with active := w.version_id == id }) := by
  unfold rollbackToVersion
  split
  · left; rfl
  · rename_i v hf
    split
    · left; rfl
    · rename_i s1 hrest
      have hs1mem : s1.mem = s.mem := by
        by_cases hv : verifyVersionIntegrity hashFn s.files v
        · rw [if_pos hv] at hrest; cases hrest; rfl
        · rw [if_neg hv] at hrest
          exact (restoreFromBackup_mem s id s1 hrest).1
      split
      · rename_i s2 e hact
        left
        have h2 : (activateVersion hashFn s1 id now user pOk).2 = .error e := by rw [hact]
        have h1 : (activateVersion hashFn s1 id now user pOk).1 = s1 :=
          activateVersion_error_state hashFn s1 id now user pOk e h2
        rw [hact] at h1
        have hs2 : s2 = s1 := h1
        rw [hs2, hs1mem]
      · rename_i s2 u hact
        right
        have h2 : (activateVersion hashFn s1 id now user pOk).2 = .ok () := by rw [hact]
        obtain ⟨w, _, _, hsh⟩ := activateVersion_ok_dest hashFn s1 id now user pOk h2
        rw [hact] at hsh
        have hs2 : s2 = saveVersions { s1 with mem :=
            ⟨s1.mem.versions.map (fun w => { w with active := w.version_id == id }),
              s1.mem.history ++ [⟨"activate", id, now, user⟩]⟩ } pOk := hsh
        rw [hs2, saveVersions_mem, hs1mem]

/-- `setStableFirst` only touches the `stable` flag. -/
theorem setStableFirst_countP_active (vs : List Version) (id : String) :
    (setStableFirst vs id).countP (fun v => v.active) = vs.countP (fun v => v.active) := by
  induction vs with
  | nil => rfl
  | cons v rest ih =>
    rw [setStableFirst]
    by_cases h : v.version_id == id
    · simp only [h, if_pos]
      simp [List.countP_cons]
    · simp only [h]
      rw [if_neg (by simp [h])]
      rw [List.countP_cons, List.countP_cons, ih]

/-- After the activation rewrite, the count of active versions is the count of
entries carrying the activated id. -/
theorem activeCount_map (vs : List Version) (id : String) :
    (vs.map (fun w => { w with active := w.version_id == id })).countP (fun v => v.active)
      = (vs.map Version.version_id).countP (fun y => y == id) := by
  rw [List.countP_map, List.countP_map]
  rfl

theorem countP_beq_le_one (l : List String) (id : String) (h : l.Nodup) :
    l.countP (fun y => y == id) ≤ 1 := by
  have : l.countP (fun y => y == id) = l.count id := rfl
  rw [this]
  exact List.nodup_iff_count_le_one.mp h id

theorem countP_beq_eq_one (l : List String) (id : String) (h : l.Nodup) (hm : id ∈ l) :
    l.countP (fun y => y == id) = 1 := by
  have h1 : l.countP (fun y => y == id) = l.count id := rfl
  have h2 : l.count id ≤ 1 := List.nodup_iff_count_le_one.mp h id
  have h3 : 0 < l.count id := List.count_pos_iff.mpr hm
  omega

theorem findVersion_prop (vs : List Version) (id : String) (v : Version)
    (h : findVersion vs id = some v) : v ∈ vs ∧ v.version_id = id := by
  unfold findVersion at h
  refine ⟨List.mem_of_find?_eq_some h, ?_⟩
  have := List.find?_some h
  simpa using this

/-- A concrete stand-in digest used to instantiate concrete states; every
property proved here is parametric in the digest (the source uses SHA-256 and
only ever compares digests for equality). -/
def hashMk (cs : List Char) : String := String.mk cs

/-! ## Claim theorems -/

/-- C8: loading the durable ledger from a file whose content is not valid
structured data never propagates the parse failure: the corrupt bytes are
archived in the backup directory under a timestamped `.bak` name and the
controller starts with an empty but usable ledger (no versions, no history). -/
theorem claim8_corrupt_ledger_recovery (raw : List Char) (backups : List (String × List Char))
    (stamp : String) :
    (loadVersions (.corrupt raw) backups stamp).1 = ⟨[], []⟩
      ∧ fsGet (loadVersions (.corrupt raw) backups stamp).2
          ("standards_versions.json." ++ stamp ++ ".bak") = some raw
      ∧ (loadVersions .absent backups stamp).1 = ⟨[], []⟩ := by
  refine ⟨rfl, ?_, rfl⟩
  unfold loadVersions
  exact fsGet_fsSet_self backups _ raw

/-- C1: on a ledger whose version ids are pairwise distinct, a successful
`activate(X)` leaves exactly one version with `active=true` — namely `X` —
across the whole ledger, and no operation (create, activate, mark-stable,
rollback) ever takes a ledger with at most one active version to one with two
versions active at once. -/
theorem claim1_single_active
    (hashFn : List Char → String) (s : RepoState) (id now user path desc vt : String)
    (pOk bOk : Bool)
    (hnodup : (s.mem.versions.map Version.version_id).Nodup)
    (hatmost : s.mem.versions.countP (fun v => v.active) ≤ 1) :
    ((activateVersion hashFn s id now user pOk).2 = .ok () →
      ((activateVersion hashFn s id now user pOk).1.mem.versions.countP (fun v => v.active) = 1
        ∧ ∀ w ∈ (activateVersion hashFn s id now user pOk).1.mem.versions,
            w.active = true → w.version_id = id))
    ∧ (createVersion hashFn s path desc vt now user pOk bOk).1.mem.versions.countP
        (fun v => v.active) ≤ 1
    ∧ (markAsStable s id now user pOk).1.mem.versions.countP (fun v => v.active) ≤ 1
    ∧ (activateVersion hashFn s id now user pOk).1.mem.versions.countP (fun v => v.active) ≤ 1
    ∧ (rollbackToVersion hashFn s id now user pOk).1.mem.versions.countP (fun v => v.active) ≤ 1 := by
  have hmap_le : (s.mem.versions.map (fun w => { w with active := w.version_id == id })).countP
      (fun v => v.active) ≤ 1 := by
    rw [activeCount_map]
    exact countP_beq_le_one _ id hnodup
  refine ⟨?_, ?_, ?_, ?_, ?_⟩
  · intro h
    obtain ⟨v, hf, hv, hsh⟩ := activateVersion_ok_dest hashFn s id now user pOk h
    obtain ⟨hvmem, hvid⟩ := findVersion_prop _ _ _ hf
    constructor
    · rw [hsh, saveVersions_mem]
      show (s.mem.versions.map (fun w => { w with active := w.version_id == id })).countP
          (fun v => v.active) = 1
      rw [activeCount_map]
      refine countP_beq_eq_one _ id hnodup ?_
      rw [← hvid]
      exact List.mem_map_of_mem Version.version_id hvmem
    · intro w hw hact
      rw [hsh, saveVersions_mem] at hw
      simp only [List.mem_map] at hw
      obtain ⟨w0, _, hw0⟩ := hw
      rw [← hw0] at hact
      simp only at hact
      rw [← hw0]
      simpa using hact
  · cases hc : fsGet s.files path with
    | none =>
      rw [createVersion_missing hashFn s path desc vt now user pOk bOk hc]
      exact hatmost
    | some content =>
      obtain ⟨_, hvs, _⟩ := createVersion_ok hashFn s path desc vt now user pOk bOk content hc
      rw [hvs, List.countP_append]
      simpa using hatmost
  · cases hf : findVersion s.mem.versions id with
    | none =>
      unfold markAsStable
      rw [hf]
      exact hatmost
    | some v =>
      rw [markAsStable_ok_shape s id now user pOk v hf, saveVersions_mem]
      show (setStableFirst s.mem.versions id).countP (fun v => v.active) ≤ 1
      rw [setStableFirst_countP_active]
      exact hatmost
  · cases hf : findVersion s.mem.versions id with
    | none =>
      rw [activateVersion_notFound hashFn s id now user pOk hf]
      exact hatmost
    | some v =>
      by_cases hv : verifyVersionIntegrity hashFn s.files v
      · rw [activateVersion_ok_shape hashFn s id now user pOk v hf hv, saveVersions_mem]
        exact hmap_le
      · rw [activateVersion_badIntegrity hashFn s id now user pOk v hf (by simpa using hv)]
        exact hatmost
  · rcases rollbackToVersion_versions_cases hashFn s id now user pOk with hc | hc
    · rw [hc]; exact hatmost
    · rw [hc]; exact hmap_le

theorem claim1_witness :
    (([(⟨"v1.0.0", "t1", "core.md", "A", "d1", true, false, ["v1.0.0"]⟩ : Version),
       ⟨"v1.1.0", "t2", "core.md", "B", "d2", false, false, ["v1.0.0"]⟩].map
        Version.version_id).Nodup
      ∧ [(⟨"v1.0.0", "t1", "core.md", "A", "d1", true, false, ["v1.0.0"]⟩ : Version),
         ⟨"v1.1.0", "t2", "core.md", "B", "d2", false, false, ["v1.0.0"]⟩].countP
          (fun v => v.active) ≤ 1)
    ∧ (((activateVersion hashMk
        ⟨⟨[⟨"v1.0.0", "t1", "core.md", "A", "d1", true, false, ["v1.0.0"]⟩,
           ⟨"v1.1.0", "t2", "core.md", "B", "d2", false, false, ["v1.0.0"]⟩], []⟩,
          .absent, [("core.md", "B".data)], []⟩
        "v1.1.0" "t3" "u" true).2 = .ok () →
      ((activateVersion hashMk
        ⟨⟨[⟨"v1.0.0", "t1", "core.md", "A", "d1", true, false, ["v1.0.0"]⟩,
           ⟨"v1.1.0", "t2", "core.md", "B", "d2", false, false, ["v1.0.0"]⟩], []⟩,
          .absent, [("core.md", "B".data)], []⟩
        "v1.1.0" "t3" "u" true).1.mem.versions.countP (fun v => v.active) = 1
        ∧ ∀ w ∈ (activateVersion hashMk
        ⟨⟨[⟨"v1.0.0", "t1", "core.md", "A", "d1", true, false, ["v1.0.0"]⟩,
           ⟨"v1.1.0", "t2", "core.md", "B", "d2", false, false, ["v1.0.0"]⟩], []⟩,
          .absent, [("core.md", "B".data)], []⟩
        "v1.1.0" "t3" "u" true).1.mem.versions,
            w.active = true → w.version_id = "v1.1.0"))
      ∧ (createVersion hashMk
        ⟨⟨[⟨"v1.0.0", "t1", "core.md", "A", "d1", true, false, ["v1.0.0"]⟩,
           ⟨"v1.1.0", "t2", "core.md", "B", "d2", false, false, ["v1.0.0"]⟩], []⟩,
          .absent, [("core.md", "B".data)], []⟩
        "core.md" "d3" "minor" "t3" "u" true true).1.mem.versions.countP
          (fun v => v.active) ≤ 1
      ∧ (markAsStable
        ⟨⟨[⟨"v1.0.0", "t1", "core.md", "A", "d1", true, false, ["v1.0.0"]⟩,
           ⟨"v1.1.0", "t2", "core.md", "B", "d2", false, false, ["v1.0.0"]⟩], []⟩,
          .absent, [("core.md", "B".data)], []⟩
        "v1.1.0" "t3" "u" true).1.mem.versions.countP (fun v => v.active) ≤ 1
      ∧ (activateVersion hashMk
        ⟨⟨[⟨"v1.0.0", "t1", "core.md", "A", "d1", true, false, ["v1.0.0"]⟩,
           ⟨"v1.1.0", "t2", "core.md", "B", "d2", false, false, ["v1.0.0"]⟩], []⟩,
          .absent, [("core.md", "B".data)], []⟩
        "v1.1.0" "t3" "u" true).1.mem.versions.countP (fun v => v.active) ≤ 1
      ∧ (rollbackToVersion hashMk
        ⟨⟨[⟨"v1.0.0", "t1", "core.md", "A", "d1", true, false, ["v1.0.0"]⟩,
           ⟨"v1.1.0", "t2", "core.md", "B", "d2", false, false, ["v1.0.0"]⟩], []⟩,
          .absent, [("core.md", "B".data)], []⟩
        "v1.1.0" "t3" "u" true).1.mem.versions.countP (fun v => v.active) ≤ 1) :=
  ⟨⟨by decide, by decide⟩,
    claim1_single_active hashMk
      ⟨⟨[⟨"v1.0.0", "t1", "core.md", "A", "d1", true, false, ["v1.0.0"]⟩,
         ⟨"v1.1.0", "t2", "core.md", "B", "d2", false, false, ["v1.0.0"]⟩], []⟩,
        .absent, [("core.md", "B".data)], []⟩
      "v1.1.0" "t3" "u" "core.md" "d3" "minor" true true (by decide) (by decide)⟩

/-- `_verify_version_integrity` fails exactly on a missing live file or a
digest mismatch. -/
theorem verify_false_iff (hashFn : List Char → String) (files : List (String × List Char))
    (v : Version) :
    verifyVersionIntegrity hashFn files v = false
      ↔ (fsGet files v.file = none ∨ ∃ d, fsGet files v.file = some d ∧ hashFn d ≠ v.hash) := by
  unfold verifyVersionIntegrity
  cases h : fsGet files v.file with
  | none => simp [h]
  | some d => simp [h]

/-- The id `create_version` assigns parses and strictly exceeds every id
already in the ledger (under the semantic-version key order). -/
theorem createVersion_monotone (hashFn : List Char → String) (s : RepoState)
    (path desc vt now user : String) (pOk bOk : Bool) (content : List Char)
    (hwf : ∀ w ∈ s.mem.versions, (verKey w.version_id).isSome)
    (hc : fsGet s.files path = some content) :
    ∃ v1, (createVersion hashFn s path desc vt now user pOk bOk).2 = .ok v1
      ∧ (createVersion hashFn s path desc vt now user pOk bOk).1.mem.versions
          = s.mem.versions ++ [v1]
      ∧ v1.hash = hashFn content ∧ v1.file = path ∧ v1.active = false
      ∧ (verKey v1.version_id).isSome
      ∧ ∀ w ∈ s.mem.versions, keyLt (verKeyD w.version_id) (verKeyD v1.version_id) = true := by
  obtain ⟨hok, hvs, _⟩ := createVersion_ok hashFn s path desc vt now user pOk bOk content hc
  cases hvsnil : s.mem.versions with
  | nil =>
    refine ⟨_, hok, by rw [hvs, hvsnil], rfl, rfl, rfl, ?_, ?_⟩
    · have : getLatestVersion s.mem.versions = none := by
        unfold getLatestVersion latestOf
        rw [hvsnil]
        rfl
      rw [this]
      show (verKey "v1.0.0").isSome = true
      decide
    · rw [hvsnil]
      intro w hw
      simp at hw
  | cons v0 rest =>
    have hne : s.mem.versions ≠ [] := by rw [hvsnil]; simp
    obtain ⟨last, hlast⟩ := latestOf_isSome s.mem.versions hne
    have hlatest : getLatestVersion s.mem.versions = some last := hlast
    have hlmem := latestOf_mem _ _ hlast
    obtain ⟨L, hL⟩ : ∃ L, verKey last.version_id = some L := by
      have := hwf last hlmem
      cases hq : verKey last.version_id with
      | none => rw [hq] at this; simp at this
      | some L => exact ⟨L, rfl⟩
    obtain ⟨K, hK, hLK⟩ := incrementVersion_gt last.version_id vt L hL
    rw [← hvsnil]
    refine ⟨_, hok, by rw [hvs], rfl, rfl, rfl, ?_, ?_⟩
    · rw [hlatest]
      simp [hK]
    · intro w hw
      have hKD : verKeyD (incrementVersion last.version_id vt) = K := by simp [verKeyD, hK]
      have hLD : verKeyD last.version_id = L := by simp [verKeyD, hL]
      have hwl := latestOf_max _ _ hlast w hw
      rw [hLD] at hwl
      have hgoal : keyLt (verKeyD w.version_id) K = true := by
        rcases keyLt_total _ _ hwl with hlt | heq
        · exact keyLt_trans _ _ _ hlt hLK
        · rw [← heq]
          exact hLK
      rw [hlatest]
      show keyLt (verKeyD w.version_id) (verKeyD (incrementVersion last.version_id vt)) = true
      rw [hKD]
      exact hgoal

/-- The fresh version is the one `_find_version` resolves after a create. -/
theorem findVersion_append_new (vs : List Version) (v1 : Version)
    (h : ∀ w ∈ vs, keyLt (verKeyD w.version_id) (verKeyD v1.version_id) = true) :
    findVersion (vs ++ [v1]) v1.version_id = some v1 := by
  unfold findVersion
  rw [find?_append_of_none _ vs [v1] ?hnone]
  · simp [List.find?]
  · intro w hw
    have hk := h w hw
    by_cases hq : w.version_id == v1.version_id
    · have : w.version_id = v1.version_id := by simpa using hq
      rw [this, keyLt_irrefl] at hk
      simp at hk
    · simpa using hq

/-- C2: for a resolvable version, `activate` raises the integrity violation
exactly when the live artifact is missing or its fresh digest differs from
the stored `content_hash`; every raise leaves the state (so every `active`
flag) untouched; and after creating `V1` from content `C` and overwriting the
live file with `C'` of a different digest, `activate(V1)` raises the
integrity violation without changing the state. -/
theorem claim2_integrity_gate
    (hashFn : List Char → String) (s s' : RepoState)
    (id now user path desc vt now' user' : String)
    (pOk pOk' bOk : Bool) (v : Version) (c c' : List Char)
    (hf : findVersion s.mem.versions id = some v)
    (hwf : ∀ w ∈ s'.mem.versions, (verKey w.version_id).isSome)
    (hc : fsGet s'.files path = some c)
    (hne : hashFn c' ≠ hashFn c) :
    (((activateVersion hashFn s id now user pOk).2 = .error .versionIntegrity)
      ↔ (fsGet s.files v.file = none ∨ ∃ d, fsGet s.files v.file = some d ∧ hashFn d ≠ v.hash))
    ∧ (∀ e, (activateVersion hashFn s id now user pOk).2 = .error e
        → (activateVersion hashFn s id now user pOk).1 = s)
    ∧ (∀ v1, (createVersion hashFn s' path desc vt now' user' pOk' bOk).2 = .ok v1
        → (activateVersion hashFn
            { (createVersion hashFn s' path desc vt now' user' pOk' bOk).1 with
              files := fsSet (createVersion hashFn s' path desc vt now' user' pOk' bOk).1.files
                        path c' }
            v1.version_id now user pOk).2 = .error .versionIntegrity
          ∧ (activateVersion hashFn
            { (createVersion hashFn s' path desc vt now' user' pOk' bOk).1 with
              files := fsSet (createVersion hashFn s' path desc vt now' user' pOk' bOk).1.files
                        path c' }
            v1.version_id now user pOk).1
            = { (createVersion hashFn s' path desc vt now' user' pOk' bOk).1 with
                files := fsSet (createVersion hashFn s' path desc vt now' user' pOk' bOk).1.files
                          path c' }) := by
  refine ⟨?_, ?_, ?_⟩
  · constructor
    · intro h
      rw [← verify_false_iff]
      by_cases hv : verifyVersionIntegrity hashFn s.files v
      · rw [activateVersion_ok_shape hashFn s id now user pOk v hf hv] at h
        simp at h
      · simpa using hv
    · intro h
      rw [← verify_false_iff hashFn s.files v] at h
      rw [activateVersion_badIntegrity hashFn s id now user pOk v hf h]
  · intro e he
    exact activateVersion_error_state hashFn s id now user pOk e he
  · intro v1 hok
    obtain ⟨v1', hok', hvs, hhash, hfile, _, _, hgt⟩ :=
      createVersion_monotone hashFn s' path desc vt now' user' pOk' bOk c hwf hc
    have hv1 : v1' = v1 := by
      rw [hok] at hok'
      simpa using hok'.symm
    subst hv1
    have hfind : findVersion
        ({ (createVersion hashFn s' path desc vt now' user' pOk' bOk).1 with
            files := fsSet (createVersion hashFn s' path desc vt now' user' pOk' bOk).1.files
                      path c' }).mem.versions v1'.version_id = some v1' := by
      show findVersion (createVersion hashFn s' path desc vt now' user' pOk' bOk).1.mem.versions
          v1'.version_id = some v1'
      rw [hvs]
      exact findVersion_append_new _ _ hgt
    have hverify : verifyVersionIntegrity hashFn
        ({ (createVersion hashFn s' path desc vt now' user' pOk' bOk).1 with
            files := fsSet (createVersion hashFn s' path desc vt now' user' pOk' bOk).1.files
                      path c' }).files v1' = false := by
      unfold verifyVersionIntegrity
      show (match fsGet (fsSet (createVersion hashFn s' path desc vt now' user' pOk' bOk).1.files
              path c') v1'.file with
            | none => false
            | some content => hashFn content == v1'.hash) = false
      rw [hfile, fsGet_fsSet_self]
      simp only [hhash]
      simpa using hne
    rw [activateVersion_badIntegrity hashFn _ v1'.version_id now user pOk v1' hfind hverify]
    exact ⟨rfl, rfl⟩

theorem claim2_witness :
    ((activateVersion hashMk
        ⟨⟨[⟨"v1.0.0", "t", "core.md", "A", "d", false, false, ["v1.0.0"]⟩], []⟩,
          .absent, [], []⟩ "v1.0.0" "t2" "u" true).2 = .error .versionIntegrity
      ↔ (fsGet ([] : List (String × List Char))
            (⟨"v1.0.0", "t", "core.md", "A", "d", false, false, ["v1.0.0"]⟩ : Version).file = none
          ∨ ∃ d, fsGet ([] : List (String × List Char))
              (⟨"v1.0.0", "t", "core.md", "A", "d", false, false, ["v1.0.0"]⟩ : Version).file = some d
            ∧ hashMk d ≠ (⟨"v1.0.0", "t", "core.md", "A", "d", false, false, ["v1.0.0"]⟩ : Version).hash)) ∧
    (activateVersion hashMk
      { (createVersion hashMk ⟨⟨[], []⟩, .absent, [("f.md", "A".data)], []⟩
          "f.md" "d" "minor" "t1" "u" true true).1 with
        files := fsSet (createVersion hashMk ⟨⟨[], []⟩, .absent, [("f.md", "A".data)], []⟩
          "f.md" "d" "minor" "t1" "u" true true).1.files "f.md" "B".data }
      (⟨"v1.0.0", "t1", "f.md", "A", "d", false, false, ["v1.0.0"]⟩ : Version).version_id
      "t2" "u" true).2 = .error .versionIntegrity :=
  ⟨(claim2_integrity_gate hashMk
      ⟨⟨[⟨"v1.0.0", "t", "core.md", "A", "d", false, false, ["v1.0.0"]⟩], []⟩, .absent, [], []⟩
      ⟨⟨[], []⟩, .absent, [("f.md", "A".data)], []⟩
      "v1.0.0" "t2" "u" "f.md" "d" "minor" "t1" "u" true true true
      ⟨"v1.0.0", "t", "core.md", "A", "d", false, false, ["v1.0.0"]⟩
      "A".data "B".data (by decide) (by decide) (by decide) (by decide)).1,
    ((claim2_integrity_gate hashMk
      ⟨⟨[⟨"v1.0.0", "t", "core.md", "A", "d", false, false, ["v1.0.0"]⟩], []⟩, .absent, [], []⟩
      ⟨⟨[], []⟩, .absent, [("f.md", "A".data)], []⟩
      "v1.0.0" "t2" "u" "f.md" "d" "minor" "t1" "u" true true true
      ⟨"v1.0.0", "t", "core.md", "A", "d", false, false, ["v1.0.0"]⟩
      "A".data "B".data (by decide) (by decide) (by decide) (by decide)).2.2
      ⟨"v1.0.0", "t1", "f.md", "A", "d", false, false, ["v1.0.0"]⟩ (by decide)).1⟩

/-- The exact semantic-version bumps of `_increment_version`. -/
theorem incrementVersion_major_key (v : String) (m n p : Nat) (rest : List Nat)
    (h : verKey v = some (m :: n :: p :: rest)) :
    verKey (incrementVersion v "major") = some [m + 1, 0, 0] := by
  have hD : verKeyD v = m :: n :: p :: rest := by simp [verKeyD, h]
  have hpad : verKeyD v ++ List.replicate (3 - (verKeyD v).length) 0
      = m :: n :: p :: (rest ++ List.replicate (3 - (verKeyD v).length) 0) := by
    rw [hD]; simp
  simp only [incrementVersion, hpad, if_true]
  rw [point_zero_zero, verKey_printed]

theorem incrementVersion_minor_key (v : String) (m n p : Nat) (rest : List Nat)
    (h : verKey v = some (m :: n :: p :: rest)) :
    verKey (incrementVersion v "minor") = some [m, n + 1, 0] := by
  have hD : verKeyD v = m :: n :: p :: rest := by simp [verKeyD, h]
  have hpad : verKeyD v ++ List.replicate (3 - (verKeyD v).length) 0
      = m :: n :: p :: (rest ++ List.replicate (3 - (verKeyD v).length) 0) := by
    rw [hD]; simp
  simp only [incrementVersion, hpad, if_true]
  rw [if_neg (by decide), point_zero, verKey_printed]

theorem incrementVersion_patch_key (v : String) (m n p : Nat) (rest : List Nat)
    (h : verKey v = some (m :: n :: p :: rest)) :
    verKey (incrementVersion v "patch") = some [m, n, p + 1] := by
  have hD : verKeyD v = m :: n :: p :: rest := by simp [verKeyD, h]
  have hpad : verKeyD v ++ List.replicate (3 - (verKeyD v).length) 0
      = m :: n :: p :: (rest ++ List.replicate (3 - (verKeyD v).length) 0) := by
    rw [hD]; simp
  simp only [incrementVersion, hpad]
  rw [if_neg (by decide), if_neg (by decide), verKey_printed]

/-- C4 counterexample: the source formats every bumped id with a `v` prefix,
so the claim's equations `increment("1.2.3", minor) == "1.3.0"` and
`increment("2.0.0", patch) == "2.0.1"` are false on the code, which returns
`"v1.3.0"` and `"v2.0.1"`. -/
theorem claim4_counterexample :
    incrementVersion "1.2.3" "minor" = "v1.3.0"
      ∧ incrementVersion "1.2.3" "minor" ≠ "1.3.0"
      ∧ incrementVersion "2.0.0" "patch" = "v2.0.1"
      ∧ incrementVersion "2.0.0" "patch" ≠ "2.0.1" := by
  refine ⟨by decide, by decide, by decide, by decide⟩

/-- C4 (amended): `_increment_version` bumps the parsed integer triple per
standard semantics — major to `(m+1,0,0)`, minor to `(m,n+1,0)`, patch to
`(m,n,p+1)` — with the code's `v` prefix on the formatted result, so
`increment("1.2.3", minor) == "v1.3.0"` and
`increment("2.0.0", patch) == "v2.0.1"`; and on any ledger whose ids parse,
`create_version` assigns an id strictly greater (in the integer-tuple order)
than every id already present, so ids are strictly increasing over any
sequence of creates and never collide. -/
theorem claim4_semver_increment
    (hashFn : List Char → String) (s : RepoState)
    (path desc vt now user version : String) (pOk bOk : Bool) (content : List Char)
    (m n p : Nat) (rest : List Nat)
    (hkey : verKey version = some (m :: n :: p :: rest))
    (hwf : ∀ w ∈ s.mem.versions, (verKey w.version_id).isSome)
    (hc : fsGet s.files path = some content) :
    (incrementVersion "1.2.3" "minor" = "v1.3.0" ∧ incrementVersion "2.0.0" "patch" = "v2.0.1")
    ∧ verKey (incrementVersion version "major") = some [m + 1, 0, 0]
    ∧ verKey (incrementVersion version "minor") = some [m, n + 1, 0]
    ∧ verKey (incrementVersion version "patch") = some [m, n, p + 1]
    ∧ ∃ v1, (createVersion hashFn s path desc vt now user pOk bOk).2 = .ok v1
        ∧ (createVersion hashFn s path desc vt now user pOk bOk).1.mem.versions
            = s.mem.versions ++ [v1]
        ∧ (∀ w ∈ s.mem.versions, keyLt (verKeyD w.version_id) (verKeyD v1.version_id) = true)
        ∧ v1.version_id ∉ s.mem.versions.map Version.version_id := by
  refine ⟨⟨by decide, by decide⟩,
    incrementVersion_major_key version m n p rest hkey,
    incrementVersion_minor_key version m n p rest hkey,
    incrementVersion_patch_key version m n p rest hkey, ?_⟩
  obtain ⟨v1, hok, hvs, _, _, _, _, hgt⟩ :=
    createVersion_monotone hashFn s path desc vt now user pOk bOk content hwf hc
  refine ⟨v1, hok, hvs, hgt, ?_⟩
  intro hmem
  simp only [List.mem_map] at hmem
  obtain ⟨w, hw, hwid⟩ := hmem
  have := hgt w hw
  rw [hwid, keyLt_irrefl] at this
  exact absurd this (by simp)

theorem claim4_witness :
    (incrementVersion "1.2.3" "minor" = "v1.3.0" ∧ incrementVersion "2.0.0" "patch" = "v2.0.1")
    ∧ verKey (incrementVersion "1.2.3" "major") = some [2, 0, 0]
    ∧ verKey (incrementVersion "1.2.3" "minor") = some [1, 3, 0]
    ∧ verKey (incrementVersion "1.2.3" "patch") = some [1, 2, 4]
    ∧ ∃ v1, (createVersion hashMk ⟨⟨[], []⟩, .absent, [("f.md", "A".data)], []⟩
          "f.md" "d" "minor" "t1" "u" true true).2 = .ok v1
        ∧ (createVersion hashMk ⟨⟨[], []⟩, .absent, [("f.md", "A".data)], []⟩
          "f.md" "d" "minor" "t1" "u" true true).1.mem.versions = [] ++ [v1]
        ∧ (∀ w ∈ ([] : List Version), keyLt (verKeyD w.version_id) (verKeyD v1.version_id) = true)
        ∧ v1.version_id ∉ ([] : List Version).map Version.version_id :=
  claim4_semver_increment hashMk ⟨⟨[], []⟩, .absent, [("f.md", "A".data)], []⟩
    "f.md" "d" "minor" "t1" "u" "1.2.3" true true "A".data 1 2 3 []
    (by decide) (by decide) (by decide)

/-- The backup directory after `_backup_version`. -/
theorem backupVersion_backups_false (s : RepoState) (path vid : String) :
    (backupVersion s path vid false).backups = s.backups := by
  unfold backupVersion
  cases fsGet s.files path <;> simp

theorem backupVersion_backups_true (s : RepoState) (path vid : String) (content : List Char)
    (h : fsGet s.files path = some content) :
    (backupVersion s path vid true).backups
      = fsSet s.backups (basename path ++ "." ++ vid) content := by
  unfold backupVersion
  rw [h]
  rfl

/-- C3 counterexample: when the snapshot copy fails (`backupOk = false`),
`create_version` still succeeds, the new version is recorded in the ledger,
and no snapshot exists for it — the create is not all-or-nothing and a
recorded version can lack its snapshot. -/
theorem claim3_counterexample :
    (createVersion hashMk ⟨⟨[], []⟩, .absent, [("core.md", "A".data)], []⟩
        "core.md" "d" "major" "t" "u" true false).2
      = .ok ⟨"v1.0.0", "t", "core.md", "A", "d", false, false, ["v1.0.0"]⟩
    ∧ (createVersion hashMk ⟨⟨[], []⟩, .absent, [("core.md", "A".data)], []⟩
        "core.md" "d" "major" "t" "u" true false).1.mem.versions
      = [⟨"v1.0.0", "t", "core.md", "A", "d", false, false, ["v1.0.0"]⟩]
    ∧ (createVersion hashMk ⟨⟨[], []⟩, .absent, [("core.md", "A".data)], []⟩
        "core.md" "d" "major" "t" "u" true false).1.backups = [] := by
  refine ⟨by decide, by decide, by decide⟩

/-- C3 (amended): `create_version` appends the ledger entry, the history
entry and flushes the ledger before attempting the snapshot; a failing
snapshot copy is logged and swallowed, so create still succeeds with the
ledger mutated, persisted and no snapshot stored; when the copy succeeds,
exactly the snapshot keyed `basename.version_id` is added. -/
theorem claim3_snapshot_after_persist
    (hashFn : List Char → String) (s : RepoState)
    (path desc vt now user : String) (content : List Char)
    (hc : fsGet s.files path = some content) :
    ∃ v1, (createVersion hashFn s path desc vt now user true false).2 = .ok v1
      ∧ (createVersion hashFn s path desc vt now user true false).1.mem.versions
          = s.mem.versions ++ [v1]
      ∧ (createVersion hashFn s path desc vt now user true false).1.disk
          = .valid (createVersion hashFn s path desc vt now user true false).1.mem
      ∧ (createVersion hashFn s path desc vt now user true false).1.backups = s.backups
      ∧ (createVersion hashFn s path desc vt now user true true).2 = .ok v1
      ∧ (createVersion hashFn s path desc vt now user true true).1.backups
          = fsSet s.backups (basename path ++ "." ++ v1.version_id) content := by
  obtain ⟨hok, hvs, _⟩ := createVersion_ok hashFn s path desc vt now user true false content hc
  obtain ⟨hok', _, _⟩ := createVersion_ok hashFn s path desc vt now user true true content hc
  refine ⟨_, hok, hvs, ?_, ?_, hok', ?_⟩
  · show (createVersion hashFn s path desc vt now user true false).1.disk
      = .valid (createVersion hashFn s path desc vt now user true false).1.mem
    unfold createVersion
    rw [hc]
    simp only [backupVersion_disk, backupVersion_mem, saveVersions_disk_true, saveVersions_mem]
  · show (createVersion hashFn s path desc vt now user true false).1.backups = s.backups
    unfold createVersion
    rw [hc]
    rw [backupVersion_backups_false, saveVersions_backups]
  · show (createVersion hashFn s path desc vt now user true true).1.backups = _
    unfold createVersion
    rw [hc]
    rw [backupVersion_backups_true _ _ _ content (by rw [saveVersions_files]; exact hc)]
    rw [saveVersions_backups]

theorem claim3_witness :
    ∃ v1, (createVersion hashMk ⟨⟨[], []⟩, .absent, [("core.md", "A".data)], []⟩
        "core.md" "d" "major" "t" "u" true false).2 = .ok v1
      ∧ (createVersion hashMk ⟨⟨[], []⟩, .absent, [("core.md", "A".data)], []⟩
          "core.md" "d" "major" "t" "u" true false).1.mem.versions = [] ++ [v1]
      ∧ (createVersion hashMk ⟨⟨[], []⟩, .absent, [("core.md", "A".data)], []⟩
          "core.md" "d" "major" "t" "u" true false).1.disk
          = .valid (createVersion hashMk ⟨⟨[], []⟩, .absent, [("core.md", "A".data)], []⟩
              "core.md" "d" "major" "t" "u" true false).1.mem
      ∧ (createVersion hashMk ⟨⟨[], []⟩, .absent, [("core.md", "A".data)], []⟩
          "core.md" "d" "major" "t" "u" true false).1.backups = []
      ∧ (createVersion hashMk ⟨⟨[], []⟩, .absent, [("core.md", "A".data)], []⟩
          "core.md" "d" "major" "t" "u" true true).2 = .ok v1
      ∧ (createVersion hashMk ⟨⟨[], []⟩, .absent, [("core.md", "A".data)], []⟩
          "core.md" "d" "major" "t" "u" true true).1.backups
          = fsSet [] (basename "core.md" ++ "." ++ v1.version_id) "A".data :=
  claim3_snapshot_after_persist hashMk ⟨⟨[], []⟩, .absent, [("core.md", "A".data)], []⟩
    "core.md" "d" "major" "t" "u" "A".data (by decide)

/-- C5 counterexample: a successful `rollback_to_version` leaves the in-memory
ledger diverged from the durable file (the `rollback` history entry is never
flushed), and a failing durable write during `create_version` is swallowed —
the call still succeeds, the ledger mutates in memory only, and no error is
surfaced. -/
theorem claim5_counterexample :
    ((rollbackToVersion hashMk
        ⟨⟨[⟨"v1.0.0", "t", "core.md", "A", "d", false, false, ["v1.0.0"]⟩], []⟩,
          .absent, [("core.md", "A".data)], []⟩ "v1.0.0" "t9" "u" true).2 = .ok ()
      ∧ (rollbackToVersion hashMk
        ⟨⟨[⟨"v1.0.0", "t", "core.md", "A", "d", false, false, ["v1.0.0"]⟩], []⟩,
          .absent, [("core.md", "A".data)], []⟩ "v1.0.0" "t9" "u" true).1.disk
        ≠ .valid (rollbackToVersion hashMk
        ⟨⟨[⟨"v1.0.0", "t", "core.md", "A", "d", false, false, ["v1.0.0"]⟩], []⟩,
          .absent, [("core.md", "A".data)], []⟩ "v1.0.0" "t9" "u" true).1.mem)
    ∧ ((createVersion hashMk ⟨⟨[], []⟩, .absent, [("core.md", "A".data)], []⟩
          "core.md" "d" "major" "t" "u" false true).2
        = .ok ⟨"v1.0.0", "t", "core.md", "A", "d", false, false, ["v1.0.0"]⟩
      ∧ (createVersion hashMk ⟨⟨[], []⟩, .absent, [("core.md", "A".data)], []⟩
          "core.md" "d" "major" "t" "u" false true).1.disk = .absent
      ∧ (createVersion hashMk ⟨⟨[], []⟩, .absent, [("core.md", "A".data)], []⟩
          "core.md" "d" "major" "t" "u" false true).1.mem.versions ≠ []) := by
  refine ⟨⟨by decide, by decide⟩, by decide, by decide, by decide⟩

/-- C5 (amended): `create`, `activate` and `mark_stable` flush the full
in-memory ledger (their history entry included) when the durable write
succeeds, but `rollback` appends its `rollback` history entry after the flush
performed inside the activation and never flushes again, so the durable copy
is exactly the final ledger minus that last entry; and a failing durable
write is caught and logged — the operation still returns success with the
durable state untouched, leaving memory and disk diverged with no error
surfaced. -/
theorem claim5_persistence
    (hashFn : List Char → String) (s : RepoState)
    (id path desc vt now user : String) (bOk : Bool) :
    ((∃ c, fsGet s.files path = some c) →
        (createVersion hashFn s path desc vt now user true bOk).1.disk
          = .valid (createVersion hashFn s path desc vt now user true bOk).1.mem)
    ∧ ((activateVersion hashFn s id now user true).2 = .ok () →
        (activateVersion hashFn s id now user true).1.disk
          = .valid (activateVersion hashFn s id now user true).1.mem)
    ∧ ((markAsStable s id now user true).2 = .ok () →
        (markAsStable s id now user true).1.disk
          = .valid (markAsStable s id now user true).1.mem)
    ∧ ((rollbackToVersion hashFn s id now user true).2 = .ok () →
        (rollbackToVersion hashFn s id now user true).1.disk
          = .valid ⟨(rollbackToVersion hashFn s id now user true).1.mem.versions,
                    (rollbackToVersion hashFn s id now user true).1.mem.history.dropLast⟩
        ∧ (rollbackToVersion hashFn s id now user true).1.mem.history.getLast?
            = some ⟨"rollback", id, now, user⟩
        ∧ (rollbackToVersion hashFn s id now user true).1.disk
            ≠ .valid (rollbackToVersion hashFn s id now user true).1.mem)
    ∧ ((∃ c, fsGet s.files path = some c) →
        (∃ v, (createVersion hashFn s path desc vt now user false bOk).2 = .ok v)
        ∧ (createVersion hashFn s path desc vt now user false bOk).1.disk = s.disk)
    ∧ ((activateVersion hashFn s id now user false).2 = .ok ()
        → (activateVersion hashFn s id now user false).1.disk = s.disk) := by
  refine ⟨?_, ?_, ?_, ?_, ?_, ?_⟩
  · rintro ⟨c, hc⟩
    unfold createVersion
    rw [hc]
    simp only [backupVersion_disk, backupVersion_mem, saveVersions_disk_true, saveVersions_mem]
  · intro h
    obtain ⟨v, hf, hv, hsh⟩ := activateVersion_ok_dest hashFn s id now user true h
    rw [hsh, saveVersions_disk_true, saveVersions_mem]
  · intro h
    cases hf : findVersion s.mem.versions id with
    | none =>
      unfold markAsStable at h
      rw [hf] at h
      simp at h
    | some v =>
      rw [markAsStable_ok_shape s id now user true v hf]
      rw [saveVersions_disk_true, saveVersions_mem]
  · intro h
    obtain ⟨s1, hs1mem, hact, hver, hhist, hdisk⟩ := rollbackToVersion_ok hashFn s id now user true h
    obtain ⟨v, hf, hv, hsh⟩ := activateVersion_ok_dest hashFn s1 id now user true hact
    simp only [hdisk, hver, hhist, hsh, saveVersions_disk_true, saveVersions_mem]
    refine ⟨?_, ?_, ?_⟩
    · rw [List.dropLast_concat]
    · rw [List.getLast?_concat]
    · intro hq
      simp only [DiskFile.valid.injEq] at hq
      have hh := congrArg Ledger.history hq
      simp only [hhist, hsh, saveVersions_mem] at hh
      have := congrArg List.length hh
      simp only [List.length_append, List.length_cons, List.length_nil] at this
      omega
  · rintro ⟨c, hc⟩
    obtain ⟨hok, _, _⟩ := createVersion_ok hashFn s path desc vt now user false bOk c hc
    refine ⟨⟨_, hok⟩, ?_⟩
    unfold createVersion
    rw [hc]
    simp only [backupVersion_disk, saveVersions_disk_false]
  · intro h
    obtain ⟨v, hf, hv, hsh⟩ := activateVersion_ok_dest hashFn s id now user false h
    rw [hsh, saveVersions_disk_false]

/-- C6 counterexample: with an empty stable set, `rollback_to_last_stable`
does not fail with any error — it logs a warning and returns plain `None`
with the state untouched. -/
theorem claim6_counterexample :
    (rollbackToLastStable hashMk
      ⟨⟨[⟨"v3.0.0", "t", "core.md", "A", "d", false, false, ["v1.0.0"]⟩], []⟩,
        .absent, [("core.md", "A".data)], []⟩ "t9" "u" true)
      = (⟨⟨[⟨"v3.0.0", "t", "core.md", "A", "d", false, false, ["v1.0.0"]⟩], []⟩,
          .absent, [("core.md", "A".data)], []⟩, .ok none) := by
  decide

/-- C6 (amended): `rollback_to_last_stable` selects, among the versions with
`stable=true`, the first one whose semantic-version key no other stable entry
exceeds (the greatest key) and delegates to `rollback_to_version` on it —
with stable `v1.0.0` and `v2.1.0` and non-stable `v3.0.0` it resolves
`v2.1.0`; when the stable set is empty it does not raise: it returns `None`
and performs no rollback. -/
theorem claim6_stable_selection
    (hashFn : List Char → String) (s : RepoState) (now user : String) (pOk : Bool) :
    (getStableVersions s.mem.versions = [] →
        rollbackToLastStable hashFn s now user pOk = (s, .ok none))
    ∧ (getStableVersions s.mem.versions ≠ [] →
        ∃ latest, latestOf (getStableVersions s.mem.versions) = some latest
          ∧ latest ∈ getStableVersions s.mem.versions
          ∧ latest.stable = true
          ∧ (∀ w ∈ getStableVersions s.mem.versions,
              keyLt (verKeyD latest.version_id) (verKeyD w.version_id) = false)
          ∧ rollbackToLastStable hashFn s now user pOk
              = (match rollbackToVersion hashFn s latest.version_id now user pOk with
                 | (s1, .error e) => (s1, .error e)
                 | (s1, .ok _) => (s1, .ok (some latest.version_id))))
    ∧ (rollbackToLastStable hashMk
        ⟨⟨[⟨"v1.0.0", "t", "core.md", "A", "d", false, true, ["v1.0.0"]⟩,
           ⟨"v2.1.0", "t", "core.md", "A", "d", false, true, ["v1.0.0"]⟩,
           ⟨"v3.0.0", "t", "core.md", "A", "d", false, false, ["v1.0.0"]⟩], []⟩,
          .absent, [("core.md", "A".data)], []⟩ "t9" "u" true).2 = .ok (some "v2.1.0") := by
  refine ⟨?_, ?_, by decide⟩
  · intro h
    exact rollbackToLastStable_empty hashFn s now user pOk h
  · intro h
    obtain ⟨latest, hl, hmem, hmax, heq⟩ := rollbackToLastStable_some hashFn s now user pOk h
    refine ⟨latest, hl, hmem, ?_, hmax, heq⟩
    have := List.mem_filter.mp hmem
    simpa using this.2

/-! ## Bounds of `find_longest_match` -/

theorem j2lenGet_cases (m : List (Nat × Nat)) (j : Nat) :
    j2lenGet m j = 0 ∨ ∃ p, p ∈ m ∧ p.1 = j ∧ j2lenGet m j = p.2 := by
  unfold j2lenGet
  cases hf : m.find? (fun p => p.1 == j) with
  | none => left; rfl
  | some p =>
    right
    refine ⟨p, List.mem_of_find?_eq_some hf, ?_, rfl⟩
    have := List.find?_some hf
    simpa using this

theorem flmInner_inv (i alo ahi blo bhi : Nat) (prev : List (Nat × Nat))
    (hi1 : alo ≤ i) (hi2 : i < ahi)
    (hprev : ∀ p ∈ prev, alo + p.2 ≤ i ∧ blo + p.2 ≤ p.1 + 1) :
    ∀ (js : List Nat) (st : FlmSt) (cur : List (Nat × Nat)),
      bestInv alo ahi blo bhi st →
      (∀ p ∈ cur, alo + p.2 ≤ i + 1 ∧ blo + p.2 ≤ p.1 + 1) →
      bestInv alo ahi blo bhi (flmInner i blo bhi prev js st cur).1
        ∧ ∀ p ∈ (flmInner i blo bhi prev js st cur).2,
            alo + p.2 ≤ i + 1 ∧ blo + p.2 ≤ p.1 + 1 := by
  intro js
  induction js with
  | nil =>
    intro st cur hst hcur
    exact ⟨hst, hcur⟩
  | cons j js ih =>
    intro st cur hst hcur
    rw [flmInner]
    by_cases hjlo : j < blo
    · simp only [hjlo, if_true]
      exact ih st cur hst hcur
    · simp only [hjlo, if_false]
      by_cases hjhi : bhi ≤ j
      · simp only [hjhi, if_true]
        exact ⟨hst, hcur⟩
      · simp only [hjhi, if_false]
        have hjb : blo ≤ j := by omega
        have hjh : j < bhi := by omega
        have hkb1 : alo + ((if j = 0 then 0 else j2lenGet prev (j - 1)) + 1) ≤ i + 1 := by
          by_cases hj0 : j = 0
          · simp only [hj0, if_true]
            omega
          · simp only [hj0, if_false]
            rcases j2lenGet_cases prev (j - 1) with h0 | ⟨p, hp, _, hget⟩
            · rw [h0]; omega
            · rw [hget]
              have := (hprev p hp).1
              omega
        have hkb2 : blo + ((if j = 0 then 0 else j2lenGet prev (j - 1)) + 1) ≤ j + 1 := by
          by_cases hj0 : j = 0
          · simp only [hj0, if_true]
            omega
          · simp only [hj0, if_false]
            rcases j2lenGet_cases prev (j - 1) with h0 | ⟨p, hp, hp1, hget⟩
            · rw [h0]; omega
            · rw [hget]
              have := (hprev p hp).2
              omega
        apply ih
        · by_cases hlt : st.bestsize < (if j = 0 then 0 else j2lenGet prev (j - 1)) + 1
          · simp only [hlt, if_true]
            refine ⟨?_, ?_, ?_, ?_⟩ <;> dsimp only <;> omega
          · simp only [hlt, if_false]
            exact hst
        · intro p hp
          rcases List.mem_cons.mp hp with hp | hp
          · rw [hp]
            exact ⟨hkb1, hkb2⟩
          · exact hcur p hp

theorem flmPhase1_inv {α : Type} [DecidableEq α] (a : List α) (b2j : List (α × List Nat))
    (alo ahi blo bhi : Nat) (h1 : alo ≤ ahi) (h2 : blo ≤ bhi) :
    bestInv alo ahi blo bhi (flmPhase1 a b2j alo ahi blo bhi) := by
  unfold flmPhase1
  suffices H : ∀ (len start : Nat) (acc : FlmSt × List (Nat × Nat)),
      alo ≤ start → start + len ≤ ahi →
      bestInv alo ahi blo bhi acc.1 →
      (∀ p ∈ acc.2, alo + p.2 ≤ start ∧ blo + p.2 ≤ p.1 + 1) →
      bestInv alo ahi blo bhi (((List.range' start len).foldl
        (fun (p : FlmSt × List (Nat × Nat)) i =>
          match a[i]? with
          | none => (p.1, [])
          | some ai => flmInner i blo bhi p.2 (b2jGet b2j ai) p.1 []) acc).1) by
    refine H (ahi - alo) alo (⟨alo, blo, 0⟩, []) (le_refl alo) (by omega)
      ⟨le_refl alo, le_refl blo, by dsimp only; omega, by dsimp only; omega⟩ (by simp)
  intro len
  induction len with
  | zero =>
    intro start acc _ _ hst _
    simpa using hst
  | succ len ih =>
    intro start acc hs1 hs2 hst hcur
    rw [List.range'_succ]
    simp only [List.foldl_cons]
    cases ha : a[start]? with
    | none =>
      refine ih (start + 1) (acc.1, []) (by omega) (by omega) hst (by simp)
    | some ai =>
      have hres := flmInner_inv start alo ahi blo bhi acc.2 hs1 (by omega) hcur
        (b2jGet b2j ai) acc.1 [] hst (by simp)
      refine ih (start + 1) _ (by omega) (by omega) hres.1 ?_
      intro p hp
      have := hres.2 p hp
      exact ⟨by omega, this.2⟩

theorem extendLeft_inv {α : Type} [DecidableEq α] (a b : List α) (alo blo ahi bhi : Nat) :
    ∀ (fuel : Nat) (st : FlmSt), bestInv alo ahi blo bhi st →
      bestInv alo ahi blo bhi (extendLeft a b alo blo fuel st) := by
  intro fuel
  induction fuel with
  | zero => intro st hst; exact hst
  | succ fuel ih =>
    intro st hst
    rw [extendLeft]
    cases a[st.besti - 1]? with
    | none => exact hst
    | some x =>
      cases b[st.bestj - 1]? with
      | none => exact hst
      | some y =>
        by_cases hc : alo < st.besti ∧ blo < st.bestj ∧ x = y
        · simp only [hc, if_true]
          apply ih
          obtain ⟨hst1, hst2, hst3, hst4⟩ := hst
          obtain ⟨hc1, hc2, _⟩ := hc
          refine ⟨?_, ?_, ?_, ?_⟩ <;> dsimp only <;> omega
        · simp only [hc, if_false]
          exact hst

theorem extendRight_inv {α : Type} [DecidableEq α] (a b : List α) (alo blo ahi bhi : Nat) :
    ∀ (fuel : Nat) (st : FlmSt), bestInv alo ahi blo bhi st →
      bestInv alo ahi blo bhi (extendRight a b ahi bhi fuel st) := by
  intro fuel
  induction fuel with
  | zero => intro st hst; exact hst
  | succ fuel ih =>
    intro st hst
    rw [extendRight]
    cases a[st.besti + st.bestsize]? with
    | none => exact hst
    | some x =>
      cases b[st.bestj + st.bestsize]? with
      | none => exact hst
      | some y =>
        by_cases hc : st.besti + st.bestsize < ahi ∧ st.bestj + st.bestsize < bhi ∧ x = y
        · simp only [hc, if_true]
          apply ih
          obtain ⟨hst1, hst2, hst3, hst4⟩ := hst
          obtain ⟨hc1, hc2, _⟩ := hc
          refine ⟨?_, ?_, ?_, ?_⟩ <;> dsimp only <;> omega
        · simp only [hc, if_false]
          exact hst

theorem flm_bounds {α : Type} [DecidableEq α] (a b : List α) (b2j : List (α × List Nat))
    (alo ahi blo bhi : Nat) (h1 : alo ≤ ahi) (h2 : blo ≤ bhi) :
    alo ≤ (findLongestMatch a b b2j alo ahi blo bhi).i
      ∧ blo ≤ (findLongestMatch a b b2j alo ahi blo bhi).j
      ∧ (findLongestMatch a b b2j alo ahi blo bhi).i
          + (findLongestMatch a b b2j alo ahi blo bhi).size ≤ ahi
      ∧ (findLongestMatch a b b2j alo ahi blo bhi).j
          + (findLongestMatch a b b2j alo ahi blo bhi).size ≤ bhi := by
  unfold findLongestMatch
  have hp := flmPhase1_inv a b2j alo ahi blo bhi h1 h2
  have hl := extendLeft_inv a b alo blo ahi bhi (flmPhase1 a b2j alo ahi blo bhi).besti
    (flmPhase1 a b2j alo ahi blo bhi) hp
  have hr := extendRight_inv a b alo blo ahi bhi ahi _ hl
  exact hr

/-! ## The total match size is bounded by both lengths -/

theorem sumSizes_nil : sumSizes [] = 0 := rfl

theorem sumSizes_cons (m : MatchBlock) (l : List MatchBlock) :
    sumSizes (m :: l) = m.size + sumSizes l := by
  simp [sumSizes]

theorem sumSizes_append (l1 l2 : List MatchBlock) :
    sumSizes (l1 ++ l2) = sumSizes l1 + sumSizes l2 := by
  simp [sumSizes]

theorem insertBlock_sum (x : MatchBlock) (l : List MatchBlock) :
    sumSizes (insertBlock x l) = x.size + sumSizes l := by
  induction l with
  | nil => simp [insertBlock, sumSizes]
  | cons y ys ih =>
    rw [insertBlock]
    by_cases h : blockLe x y = true
    · simp only [h, if_true, sumSizes_cons]
    · rw [if_neg h]
      simp only [sumSizes_cons, ih]
      omega

theorem sortBlocks_sum (l : List MatchBlock) : sumSizes (sortBlocks l) = sumSizes l := by
  unfold sortBlocks
  induction l with
  | nil => rfl
  | cons x xs ih => rw [List.foldr_cons, insertBlock_sum, ih, sumSizes_cons]

theorem mergeLoop_sum : ∀ (l : List MatchBlock) (i1 j1 k1 : Nat),
    sumSizes (mergeLoop i1 j1 k1 l) = k1 + sumSizes l := by
  intro l
  induction l with
  | nil =>
    intro i1 j1 k1
    rw [mergeLoop]
    by_cases h : k1 ≠ 0
    · simp [h, sumSizes]
    · simp only [ne_eq, not_not] at h
      simp [h, sumSizes]
  | cons m rest ih =>
    intro i1 j1 k1
    rw [mergeLoop]
    by_cases h : i1 + k1 = m.i ∧ j1 + k1 = m.j
    · rw [if_pos h, ih, sumSizes_cons]
      omega
    · rw [if_neg h, sumSizes_append, ih, sumSizes_cons]
      by_cases hk : k1 ≠ 0
      · rw [if_pos hk]
        simp [sumSizes]
      · simp only [ne_eq, not_not] at hk
        rw [if_neg (by simp [hk])]
        simp [sumSizes, hk]

theorem mbr_sum_le {α : Type} [DecidableEq α] (a b : List α) (b2j : List (α × List Nat)) :
    ∀ (fuel alo ahi blo bhi : Nat), alo ≤ ahi → blo ≤ bhi →
      sumSizes (matchingBlocksRec a b b2j fuel alo ahi blo bhi) + alo ≤ ahi
        ∧ sumSizes (matchingBlocksRec a b b2j fuel alo ahi blo bhi) + blo ≤ bhi := by
  intro fuel
  induction fuel with
  | zero =>
    intro alo ahi blo bhi h1 h2
    constructor <;> simp [matchingBlocksRec, sumSizes] <;> omega
  | succ fuel ih =>
    intro alo ahi blo bhi h1 h2
    obtain ⟨hb1, hb2, hb3, hb4⟩ := flm_bounds a b b2j alo ahi blo bhi h1 h2
    simp only [matchingBlocksRec]
    by_cases hsz : (findLongestMatch a b b2j alo ahi blo bhi).size = 0
    · simp only [hsz, if_true]
      constructor <;> simp [sumSizes] <;> omega
    · simp only [hsz, if_false, sumSizes_append, sumSizes_cons]
      have hL : sumSizes (if alo < (findLongestMatch a b b2j alo ahi blo bhi).i
            ∧ blo < (findLongestMatch a b b2j alo ahi blo bhi).j then
          matchingBlocksRec a b b2j fuel alo (findLongestMatch a b b2j alo ahi blo bhi).i
            blo (findLongestMatch a b b2j alo ahi blo bhi).j else [])
          + alo ≤ (findLongestMatch a b b2j alo ahi blo bhi).i
          ∧ sumSizes (if alo < (findLongestMatch a b b2j alo ahi blo bhi).i
            ∧ blo < (findLongestMatch a b b2j alo ahi blo bhi).j then
          matchingBlocksRec a b b2j fuel alo (findLongestMatch a b b2j alo ahi blo bhi).i
            blo (findLongestMatch a b b2j alo ahi blo bhi).j else [])
          + blo ≤ (findLongestMatch a b b2j alo ahi blo bhi).j := by
        by_cases hc : alo < (findLongestMatch a b b2j alo ahi blo bhi).i
            ∧ blo < (findLongestMatch a b b2j alo ahi blo bhi).j
        · simp only [hc, if_true]
          exact ih alo _ blo _ (by omega) (by omega)
        · simp only [hc, if_false]
          constructor <;> simp [sumSizes] <;> omega
      have hR : sumSizes (if (findLongestMatch a b b2j alo ahi blo bhi).i
              + (findLongestMatch a b b2j alo ahi blo bhi).size < ahi
            ∧ (findLongestMatch a b b2j alo ahi blo bhi).j
              + (findLongestMatch a b b2j alo ahi blo bhi).size < bhi then
          matchingBlocksRec a b b2j fuel
            ((findLongestMatch a b b2j alo ahi blo bhi).i
              + (findLongestMatch a b b2j alo ahi blo bhi).size) ahi
            ((findLongestMatch a b b2j alo ahi blo bhi).j
              + (findLongestMatch a b b2j alo ahi blo bhi).size) bhi else [])
          + ((findLongestMatch a b b2j alo ahi blo bhi).i
              + (findLongestMatch a b b2j alo ahi blo bhi).size) ≤ ahi
          ∧ sumSizes (if (findLongestMatch a b b2j alo ahi blo bhi).i
              + (findLongestMatch a b b2j alo ahi blo bhi).size < ahi
            ∧ (findLongestMatch a b b2j alo ahi blo bhi).j
              + (findLongestMatch a b b2j alo ahi blo bhi).size < bhi then
          matchingBlocksRec a b b2j fuel
            ((findLongestMatch a b b2j alo ahi blo bhi).i
              + (findLongestMatch a b b2j alo ahi blo bhi).size) ahi
            ((findLongestMatch a b b2j alo ahi blo bhi).j
              + (findLongestMatch a b b2j alo ahi blo bhi).size) bhi else [])
          + ((findLongestMatch a b b2j alo ahi blo bhi).j
              + (findLongestMatch a b b2j alo ahi blo bhi).size) ≤ bhi := by
        by_cases hc : (findLongestMatch a b b2j alo ahi blo bhi).i
              + (findLongestMatch a b b2j alo ahi blo bhi).size < ahi
            ∧ (findLongestMatch a b b2j alo ahi blo bhi).j
              + (findLongestMatch a b b2j alo ahi blo bhi).size < bhi
        · simp only [hc, if_true]
          exact ih _ ahi _ bhi (by omega) (by omega)
        · simp only [hc, if_false]
          constructor <;> simp [sumSizes] <;> omega
      omega

theorem matchesTotal_le {α : Type} [DecidableEq α] (a b : List α) :
    matchesTotal a b ≤ a.length ∧ matchesTotal a b ≤ b.length := by
  have hmt : matchesTotal a b = sumSizes (getMatchingBlocks a b) := rfl
  have hgm : sumSizes (getMatchingBlocks a b)
      = sumSizes (matchingBlocksRec a b (chainB b) (a.length + 1) 0 a.length 0 b.length) := by
    simp only [getMatchingBlocks, sumSizes_append, mergeLoop_sum, sortBlocks_sum]
    simp [sumSizes]
  have := mbr_sum_le a b (chainB b) (a.length + 1) 0 a.length 0 b.length
    (by omega) (by omega)
  rw [hmt, hgm]
  omega

theorem calcRatioQ_nonneg (m length : Nat) : 0 ≤ calcRatioQ m length := by
  unfold calcRatioQ
  by_cases h : length = 0
  · simp [h]
  · simp only [h, if_false]
    positivity

theorem calcRatioQ_le_one (m length : Nat) (h : 2 * m ≤ length) : calcRatioQ m length ≤ 1 := by
  unfold calcRatioQ
  by_cases h0 : length = 0
  · simp [h0]
  · simp only [h0, if_false]
    rw [div_le_one (by positivity)]
    exact_mod_cast h

theorem ratioScore_nonneg {α : Type} [DecidableEq α] (a b : List α) :
    0 ≤ ratioScore a b :=
  calcRatioQ_nonneg _ _

theorem ratioScore_le_one {α : Type} [DecidableEq α] (a b : List α) :
    ratioScore a b ≤ 1 := by
  refine calcRatioQ_le_one _ _ ?_
  have := matchesTotal_le a b
  omega

theorem compareVersions_ok_sim (s : RepoState) (id1 id2 : String) (s' : RepoState)
    (r : CompareResult) (h : compareVersions s id1 id2 = (s', .ok r)) :
    ∃ c1 c2 : List Char,
      r.similarity = ratioScore (readlines c1).flatten (readlines c2).flatten * 100 := by
  simp only [compareVersions] at h
  split at h
  · exact absurd (congrArg Prod.snd h) (by simp)
  · split at h
    · exact absurd (congrArg Prod.snd h) (by simp)
    · split at h
      · have h2 := congrArg Prod.snd h
        simp only at h2
        injection h2 with h3
        exact ⟨_, _, congrArg CompareResult.similarity h3.symm⟩
      · exact absurd (congrArg Prod.snd h) (by simp)

/-- When both ids resolve and both live files are present, `compare_versions`
returns the diff record of the two live contents and leaves the state alone. -/
theorem compareVersions_resolved (s : RepoState) (id1 id2 : String) (v1 v2 : Version)
    (c1 c2 : List Char)
    (hf1 : findVersion s.mem.versions id1 = some v1)
    (hf2 : findVersion s.mem.versions id2 = some v2)
    (hg1 : fsGet s.files v1.file = some c1)
    (hg2 : fsGet s.files v2.file = some c2) :
    compareVersions s id1 id2 = (s, .ok ⟨id1, id2,
      ratioScore (readlines c1).flatten (readlines c2).flatten * 100,
      ((unifiedDiff (readlines c1) (readlines c2) ("版本 " ++ id1)
        ("版本 " ++ id2)).filter (fun l => l.head? = some '+')).length,
      ((unifiedDiff (readlines c1) (readlines c2) ("版本 " ++ id1)
        ("版本 " ++ id2)).filter (fun l => l.head? = some '-')).length,
      String.mk (unifiedDiff (readlines c1) (readlines c2) ("版本 " ++ id1)
        ("版本 " ++ id2)).flatten⟩) := by
  simp only [compareVersions, hf1, hf2, hg1, hg2, Option.isNone_some, Bool.false_eq_true,
    if_false]

theorem ratioScore_empty_left {α : Type} [DecidableEq α] (c : List α) (hc : c ≠ []) :
    ratioScore ([] : List α) c = 0 := by
  have hm := (matchesTotal_le ([] : List α) c).1
  simp only [List.length_nil, Nat.le_zero] at hm
  unfold ratioScore calcRatioQ
  rw [hm]
  have : c.length ≠ 0 := fun h => hc (List.length_eq_zero.mp h)
  simp [this]

theorem ratioScore_empty_right {α : Type} [DecidableEq α] (c : List α) (hc : c ≠ []) :
    ratioScore c ([] : List α) = 0 := by
  have hm := (matchesTotal_le c ([] : List α)).2
  simp only [List.length_nil, Nat.le_zero] at hm
  unfold ratioScore calcRatioQ
  rw [hm]
  have : c.length ≠ 0 := fun h => hc (List.length_eq_zero.mp h)
  simp [this]

/-- C7 counterexample: with a single recorded version whose live file is empty,
comparing it to itself succeeds and reports similarity `100`, not a value in
`[0, 1]` (the code multiplies `ratio()` by `100`, and two empty documents give
`100.0`, not `1.0`). -/
theorem claim7_counterexample :
    cmpSimilarity (compareVersions
        ⟨⟨[⟨"v1.0.0", "t", "f.md", "h", "d", false, false, []⟩], []⟩, .absent,
          [("f.md", [])], []⟩ "v1.0.0" "v1.0.0") = some 100
    ∧ ¬ ((100 : ℚ) ≤ 1) := by
  constructor
  · rw [compareVersions_resolved
      ⟨⟨[⟨"v1.0.0", "t", "f.md", "h", "d", false, false, []⟩], []⟩, .absent,
        [("f.md", [])], []⟩ "v1.0.0" "v1.0.0"
      ⟨"v1.0.0", "t", "f.md", "h", "d", false, false, []⟩
      ⟨"v1.0.0", "t", "f.md", "h", "d", false, false, []⟩ [] [] rfl rfl rfl rfl]
    simp only [cmpSimilarity]
    norm_num [show ratioScore (readlines ([] : List Char)).flatten
      (readlines ([] : List Char)).flatten = 1 from rfl]
  · norm_num

/-- C7 (amended): every successful `compare_versions` returns a similarity in
`[0, 100]` (namely `ratio() * 100`); two empty documents give similarity `100`,
and an empty document against a non-empty one gives similarity `0`, in either
order. -/
theorem claim7_similarity_range :
    (∀ (s : RepoState) (id1 id2 : String) (s' : RepoState) (r : CompareResult),
        compareVersions s id1 id2 = (s', .ok r) → 0 ≤ r.similarity ∧ r.similarity ≤ 100)
    ∧ (∀ (s : RepoState) (id1 id2 : String) (v1 v2 : Version),
        findVersion s.mem.versions id1 = some v1 →
        findVersion s.mem.versions id2 = some v2 →
        fsGet s.files v1.file = some [] → fsGet s.files v2.file = some [] →
        cmpSimilarity (compareVersions s id1 id2) = some 100)
    ∧ (∀ (s : RepoState) (id1 id2 : String) (v1 v2 : Version) (c : List Char),
        findVersion s.mem.versions id1 = some v1 →
        findVersion s.mem.versions id2 = some v2 →
        fsGet s.files v1.file = some [] → fsGet s.files v2.file = some c → c ≠ [] →
        cmpSimilarity (compareVersions s id1 id2) = some 0)
    ∧ (∀ (s : RepoState) (id1 id2 : String) (v1 v2 : Version) (c : List Char),
        findVersion s.mem.versions id1 = some v1 →
        findVersion s.mem.versions id2 = some v2 →
        fsGet s.files v1.file = some c → c ≠ [] → fsGet s.files v2.file = some [] →
        cmpSimilarity (compareVersions s id1 id2) = some 0) := by
  refine ⟨?_, ?_, ?_, ?_⟩
  · intro s id1 id2 s' r h
    obtain ⟨c1, c2, hsim⟩ := compareVersions_ok_sim s id1 id2 s' r h
    have h0 := ratioScore_nonneg (readlines c1).flatten (readlines c2).flatten
    have h1 := ratioScore_le_one (readlines c1).flatten (readlines c2).flatten
    rw [hsim]
    constructor <;> nlinarith
  · intro s id1 id2 v1 v2 hf1 hf2 hg1 hg2
    rw [compareVersions_resolved s id1 id2 v1 v2 [] [] hf1 hf2 hg1 hg2]
    simp only [cmpSimilarity]
    norm_num [show ratioScore (readlines ([] : List Char)).flatten
      (readlines ([] : List Char)).flatten = 1 from rfl]
  · intro s id1 id2 v1 v2 c hf1 hf2 hg1 hg2 hc
    rw [compareVersions_resolved s id1 id2 v1 v2 [] c hf1 hf2 hg1 hg2]
    simp only [cmpSimilarity]
    have hflat : (readlines c).flatten = c := readlines_flatten c
    have : ratioScore (readlines ([] : List Char)).flatten (readlines c).flatten = 0 := by
      rw [show (readlines ([] : List Char)).flatten = [] from rfl]
      exact ratioScore_empty_left _ (by rw [hflat]; exact hc)
    rw [this]
    norm_num
  · intro s id1 id2 v1 v2 c hf1 hf2 hg1 hc hg2
    rw [compareVersions_resolved s id1 id2 v1 v2 c [] hf1 hf2 hg1 hg2]
    simp only [cmpSimilarity]
    have hflat : (readlines c).flatten = c := readlines_flatten c
    have : ratioScore (readlines c).flatten (readlines ([] : List Char)).flatten = 0 := by
      rw [show (readlines ([] : List Char)).flatten = [] from rfl]
      exact ratioScore_empty_right _ (by rw [hflat]; exact hc)
    rw [this]
    norm_num

/-! ## Characterisation of the `b2j` index built by `__chain_b` -/

theorem b2jGet_nil {α : Type} [DecidableEq α] (e : α) :
    b2jGet ([] : List (α × List Nat)) e = [] := rfl

theorem b2jGet_cons {α : Type} [DecidableEq α] (x : α × List Nat)
    (m : List (α × List Nat)) (e : α) :
    b2jGet (x :: m) e = if x.1 = e then x.2 else b2jGet m e := by
  unfold b2jGet
  by_cases h : x.1 = e
  · rw [List.find?_cons_of_pos _ (by simpa using h), if_pos h]
  · rw [List.find?_cons_of_neg _ (by simpa using h), if_neg h]

theorem j2lenGet_cons (j0 k : Nat) (m : List (Nat × Nat)) (j : Nat) :
    j2lenGet ((j0, k) :: m) j = if j0 = j then k else j2lenGet m j := by
  unfold j2lenGet
  by_cases h : j0 = j
  · rw [List.find?_cons_of_pos _ (by simpa using h), if_pos h]
  · rw [List.find?_cons_of_neg _ (by simpa using h), if_neg h]

theorem b2jGet_insert {α : Type} [DecidableEq α] (m : List (α × List Nat)) (e' : α)
    (idx : Nat) (e : α) :
    b2jGet (b2jInsert m e' idx) e
      = if e' = e then b2jGet m e ++ [idx] else b2jGet m e := by
  induction m with
  | nil =>
    by_cases h : e' = e
    · rw [if_pos h]
      simp [b2jInsert, b2jGet_cons, h, b2jGet_nil]
    · rw [if_neg h]
      simp [b2jInsert, b2jGet_cons, h, b2jGet_nil]
  | cons p rest ih =>
    rw [b2jInsert]
    by_cases hpe : p.1 = e'
    · rw [if_pos hpe, b2jGet_cons, b2jGet_cons]
      by_cases h : e' = e
      · have hp : p.1 = e := hpe.trans h
        rw [if_pos h, if_pos hp]
        simp [hp]
      · have hp : p.1 ≠ e := by rw [hpe]; exact h
        rw [if_neg h, if_neg hp, if_neg hp]
    · rw [if_neg hpe, b2jGet_cons, b2jGet_cons, ih]
      by_cases hp : p.1 = e
      · have h : e' ≠ e := fun hh => hpe (hp.trans hh.symm)
        rw [if_pos hp, if_neg h, if_pos hp]
      · rw [if_neg hp, if_neg hp]

theorem b2jGet_foldl {α : Type} [DecidableEq α] (e : α) :
    ∀ (l : List (Nat × α)) (m0 : List (α × List Nat)),
      b2jGet (l.foldl (fun m p => b2jInsert m p.2 p.1) m0) e
        = b2jGet m0 e ++ (l.filter (fun p => decide (p.2 = e))).map Prod.fst := by
  intro l
  induction l with
  | nil => intro m0; simp
  | cons p ps ih =>
    intro m0
    rw [List.foldl_cons, ih, b2jGet_insert]
    by_cases h : p.2 = e
    · rw [if_pos h]
      simp [List.filter_cons, h]
    · rw [if_neg h]
      simp [List.filter_cons, h]

theorem mem_enumFrom_filter {α : Type} [DecidableEq α] (e : α) :
    ∀ (b : List α) (s j : Nat),
      j ∈ ((List.enumFrom s b).filter (fun p => decide (p.2 = e))).map Prod.fst
        ↔ ∃ t, j = s + t ∧ b[t]? = some e := by
  intro b
  induction b with
  | nil =>
    intro s j
    simp [List.enumFrom]
  | cons x xs ih =>
    intro s j
    by_cases h : x = e
    · have heq : ((List.enumFrom s (x :: xs)).filter (fun p => decide (p.2 = e))).map Prod.fst
          = s :: ((List.enumFrom (s + 1) xs).filter (fun p => decide (p.2 = e))).map Prod.fst := by
        simp [List.enumFrom, List.filter_cons, h]
      rw [heq, List.mem_cons, ih]
      constructor
      · rintro (rfl | ⟨t, rfl, ht⟩)
        · exact ⟨0, by omega, by simp [h]⟩
        · exact ⟨t + 1, by omega, by simpa using ht⟩
      · rintro ⟨t, rfl, ht⟩
        cases t with
        | zero => left; omega
        | succ t => right; exact ⟨t, by omega, by simpa using ht⟩
    · have heq : ((List.enumFrom s (x :: xs)).filter (fun p => decide (p.2 = e))).map Prod.fst
          = ((List.enumFrom (s + 1) xs).filter (fun p => decide (p.2 = e))).map Prod.fst := by
        simp [List.enumFrom, List.filter_cons, h]
      rw [heq, ih]
      constructor
      · rintro ⟨t, rfl, ht⟩
        exact ⟨t + 1, by omega, by simpa using ht⟩
      · rintro ⟨t, rfl, ht⟩
        cases t with
        | zero => exact absurd (by simpa using ht) h
        | succ t => exact ⟨t, by omega, by simpa using ht⟩

theorem sorted_enumFrom_filter {α : Type} [DecidableEq α] (e : α) :
    ∀ (b : List α) (s : Nat),
      (∀ j ∈ ((List.enumFrom s b).filter (fun p => decide (p.2 = e))).map Prod.fst, s ≤ j)
        ∧ List.Pairwise (· < ·)
            (((List.enumFrom s b).filter (fun p => decide (p.2 = e))).map Prod.fst) := by
  intro b
  induction b with
  | nil =>
    intro s
    simp [List.enumFrom]
  | cons x xs ih =>
    intro s
    obtain ⟨ih1, ih2⟩ := ih (s + 1)
    by_cases h : x = e
    · have heq : ((List.enumFrom s (x :: xs)).filter (fun p => decide (p.2 = e))).map Prod.fst
          = s :: ((List.enumFrom (s + 1) xs).filter (fun p => decide (p.2 = e))).map Prod.fst := by
        simp [List.enumFrom, List.filter_cons, h]
      rw [heq]
      constructor
      · intro j hj
        rcases List.mem_cons.mp hj with rfl | hj
        · exact le_refl j
        · exact le_trans (by omega) (ih1 j hj)
      · exact List.pairwise_cons.mpr ⟨fun j hj => lt_of_lt_of_le (by omega) (ih1 j hj), ih2⟩
    · have heq : ((List.enumFrom s (x :: xs)).filter (fun p => decide (p.2 = e))).map Prod.fst
          = ((List.enumFrom (s + 1) xs).filter (fun p => decide (p.2 = e))).map Prod.fst := by
        simp [List.enumFrom, List.filter_cons, h]
      rw [heq]
      exact ⟨fun j hj => le_trans (by omega) (ih1 j hj), ih2⟩

theorem b2jOf_mem {α : Type} [DecidableEq α] (b : List α) (e : α) (j : Nat) :
    j ∈ b2jGet (b2jOf b) e ↔ b[j]? = some e := by
  unfold b2jOf
  rw [b2jGet_foldl, b2jGet_nil, List.nil_append,
    show b.enum = List.enumFrom 0 b from rfl, mem_enumFrom_filter]
  constructor
  · rintro ⟨t, rfl, ht⟩
    simpa using ht
  · intro hj
    exact ⟨j, by omega, hj⟩

theorem b2jOf_sorted {α : Type} [DecidableEq α] (b : List α) (e : α) :
    List.Pairwise (· < ·) (b2jGet (b2jOf b) e) := by
  unfold b2jOf
  rw [b2jGet_foldl, b2jGet_nil, List.nil_append,
    show b.enum = List.enumFrom 0 b from rfl]
  exact (sorted_enumFrom_filter e b 0).2

theorem keys_insert {α : Type} [DecidableEq α] (m : List (α × List Nat)) (e : α) (idx : Nat) :
    (b2jInsert m e idx).map Prod.fst
      = if e ∈ m.map Prod.fst then m.map Prod.fst else m.map Prod.fst ++ [e] := by
  induction m with
  | nil => simp [b2jInsert]
  | cons p rest ih =>
    rw [b2jInsert]
    by_cases h : p.1 = e
    · rw [if_pos h]
      simp [h]
    · rw [if_neg h]
      simp only [List.map_cons, ih]
      by_cases hm : e ∈ rest.map Prod.fst
      · rw [if_pos hm, if_pos (by simp [hm])]
      · rw [if_neg hm, if_neg (by
          simp only [List.map_cons, List.mem_cons, not_or]
          exact ⟨fun hh => h hh.symm, hm⟩)]
        simp

theorem keys_nodup_foldl {α : Type} [DecidableEq α] :
    ∀ (l : List (Nat × α)) (m0 : List (α × List Nat)), (m0.map Prod.fst).Nodup →
      ((l.foldl (fun m p => b2jInsert m p.2 p.1) m0).map Prod.fst).Nodup := by
  intro l
  induction l with
  | nil => intro m0 h; simpa using h
  | cons p ps ih =>
    intro m0 h
    rw [List.foldl_cons]
    apply ih
    rw [keys_insert]
    by_cases hm : p.2 ∈ m0.map Prod.fst
    · rwa [if_pos hm]
    · rw [if_neg hm]
      simp only [List.nodup_append, List.nodup_cons, List.not_mem_nil, not_false_iff,
        List.nodup_nil, and_true, true_and]
      refine ⟨h, ?_⟩
      intro x hx hx2
      simp only [List.mem_singleton] at hx2
      exact hm (hx2 ▸ hx)

theorem b2jOf_keys_nodup {α : Type} [DecidableEq α] (b : List α) :
    ((b2jOf b).map Prod.fst).Nodup :=
  keys_nodup_foldl _ [] (by simp)

theorem b2jGet_eq_nil_of_not_mem_keys {α : Type} [DecidableEq α]
    (m : List (α × List Nat)) (e : α) (h : e ∉ m.map Prod.fst) : b2jGet m e = [] := by
  induction m with
  | nil => rfl
  | cons p rest ih =>
    simp only [List.map_cons, List.mem_cons, not_or] at h
    rw [b2jGet_cons, if_neg (fun hh => h.1 hh.symm)]
    exact ih h.2

theorem b2jGet_filter {α : Type} [DecidableEq α] (m : List (α × List Nat))
    (q : α × List Nat → Bool) (e : α) (h : (m.map Prod.fst).Nodup) :
    b2jGet (m.filter q) e = [] ∨ b2jGet (m.filter q) e = b2jGet m e := by
  induction m with
  | nil => left; rfl
  | cons p rest ih =>
    simp only [List.map_cons, List.nodup_cons] at h
    obtain ⟨hp, hrest⟩ := h
    rw [List.filter_cons]
    by_cases hq : q p = true
    · rw [if_pos hq, b2jGet_cons, b2jGet_cons]
      by_cases hpe : p.1 = e
      · right; rw [if_pos hpe, if_pos hpe]
      · rw [if_neg hpe, if_neg hpe]
        exact ih hrest
    · rw [if_neg hq, b2jGet_cons]
      by_cases hpe : p.1 = e
      · left
        apply b2jGet_eq_nil_of_not_mem_keys
        intro hmem
        apply hp
        rw [← hpe] at hmem
        obtain ⟨x, hx, hfx⟩ := List.mem_map.mp hmem
        exact List.mem_map.mpr ⟨x, List.mem_of_mem_filter hx, hfx⟩
      · rw [if_neg hpe]
        exact ih hrest

theorem chainB_get {α : Type} [DecidableEq α] (b : List α) (e : α) :
    b2jGet (chainB b) e = [] ∨ b2jGet (chainB b) e = b2jGet (b2jOf b) e := by
  simp only [chainB]
  by_cases h : 200 ≤ b.length
  · rw [if_pos h]
    exact b2jGet_filter _ _ e (b2jOf_keys_nodup b)
  · rw [if_neg h]
    right; rfl

theorem chainB_mem {α : Type} [DecidableEq α] (b : List α) (e : α) (j : Nat)
    (h : j ∈ b2jGet (chainB b) e) : b[j]? = some e := by
  rcases chainB_get b e with hc | hc
  · rw [hc] at h; cases h
  · rw [hc] at h
    exact (b2jOf_mem b e j).mp h

theorem chainB_complete {α : Type} [DecidableEq α] (b : List α) (e : α) (j i : Nat)
    (hj : j ∈ b2jGet (chainB b) e) (hi : b[i]? = some e) : i ∈ b2jGet (chainB b) e := by
  rcases chainB_get b e with hc | hc
  · rw [hc] at hj; cases hj
  · rw [hc] at hj ⊢
    exact (b2jOf_mem b e i).mpr hi

theorem chainB_sorted {α : Type} [DecidableEq α] (b : List α) (e : α) :
    List.Pairwise (· < ·) (b2jGet (chainB b) e) := by
  rcases chainB_get b e with hc | hc
  · rw [hc]; exact List.Pairwise.nil
  · rw [hc]; exact b2jOf_sorted b e

/-! ## The diagonal dynamic programming of `find_longest_match(a, a)` -/

theorem mlen_eq_zero {α : Type} [DecidableEq α] (b2j : List (α × List Nat)) (a : List α)
    (i j : Nat) (h : memRowB b2j a i j = false) : mlen b2j a i j = 0 := by
  cases i <;> simp [mlen, h]

theorem mlen_diag_pos {α : Type} [DecidableEq α] (b2j : List (α × List Nat)) (a : List α)
    (j : Nat) (h : memRowB b2j a j j = true) : 1 ≤ mlen b2j a j j := by
  cases j with
  | zero => simp [mlen, h]
  | succ j => simp [mlen, h]

theorem memRowB_diag {α : Type} [DecidableEq α] (a : List α) (i j : Nat)
    (h : memRowB (chainB a) a i j = true) :
    memRowB (chainB a) a j j = true ∧ memRowB (chainB a) a i i = true := by
  unfold memRowB at h ⊢
  cases hai : a[i]? with
  | none => rw [hai] at h; cases h
  | some e =>
    rw [hai] at h
    have hj : j ∈ b2jGet (chainB a) e := of_decide_eq_true h
    have haj : a[j]? = some e := chainB_mem a e j hj
    constructor
    · rw [haj]
      exact decide_eq_true (chainB_complete a e j j hj haj)
    · exact decide_eq_true (chainB_complete a e j i hj hai)

theorem mlen_le_diag_right {α : Type} [DecidableEq α] (a : List α) :
    ∀ i j, mlen (chainB a) a i j ≤ mlen (chainB a) a j j := by
  intro i
  induction i with
  | zero =>
    intro j
    by_cases h : memRowB (chainB a) a 0 j = true
    · have hd := (memRowB_diag a 0 j h).1
      have h1 := mlen_diag_pos (chainB a) a j hd
      simp only [mlen, h, if_true]
      exact h1
    · rw [mlen_eq_zero _ _ _ _ (by simpa using h)]
      omega
  | succ i ih =>
    intro j
    by_cases h : memRowB (chainB a) a (i + 1) j = true
    · have hd := (memRowB_diag a (i + 1) j h).1
      cases j with
      | zero =>
        have h1 := mlen_diag_pos (chainB a) a 0 hd
        simp only [mlen, h, if_true, if_pos rfl]
        exact h1
      | succ j =>
        have hih := ih j
        simp only [mlen, h, if_true, Nat.succ_ne_zero, if_false, Nat.add_sub_cancel] at *
        simp only [hd, if_true] at *
        omega
    · rw [mlen_eq_zero _ _ _ _ (by simpa using h)]
      omega

theorem mlen_le_diag_left {α : Type} [DecidableEq α] (a : List α) :
    ∀ i j, mlen (chainB a) a i j ≤ mlen (chainB a) a i i := by
  intro i
  induction i with
  | zero =>
    intro j
    by_cases h : memRowB (chainB a) a 0 j = true
    · have hd := (memRowB_diag a 0 j h).2
      have h1 := mlen_diag_pos (chainB a) a 0 hd
      simp only [mlen, h, if_true]
      exact h1
    · rw [mlen_eq_zero _ _ _ _ (by simpa using h)]
      omega
  | succ i ih =>
    intro j
    by_cases h : memRowB (chainB a) a (i + 1) j = true
    · have hd := (memRowB_diag a (i + 1) j h).2
      cases j with
      | zero =>
        simp only [mlen, h, hd, if_true, if_pos rfl, Nat.succ_ne_zero, if_false,
          Nat.add_sub_cancel]
        omega
      | succ j =>
        have hih := ih j
        simp only [mlen, h, hd, if_true, Nat.succ_ne_zero, if_false, Nat.add_sub_cancel]
        omega
    · rw [mlen_eq_zero _ _ _ _ (by simpa using h)]
      omega

theorem flmInner_diag {α : Type} [DecidableEq α] (a : List α) (i : Nat)
    (prev : List (Nat × Nat))
    (Hk : ∀ j, memRowB (chainB a) a i j = true →
      (if j = 0 then 0 else j2lenGet prev (j - 1)) + 1 = mlen (chainB a) a i j) :
    ∀ (js : List Nat) (st : FlmSt) (cur : List (Nat × Nat)),
      js.Pairwise (· < ·) →
      (∀ j ∈ js, memRowB (chainB a) a i j = true ∧ j < a.length) →
      (∀ j, j2lenGet cur j
        = if memRowB (chainB a) a i j = true ∧ j ∉ js then mlen (chainB a) a i j else 0) →
      st.besti = st.bestj →
      (∀ i', i' < i → mlen (chainB a) a i' i' ≤ st.bestsize) →
      (i ∈ js ∨ mlen (chainB a) a i i ≤ st.bestsize) →
      ((flmInner i 0 a.length prev js st cur).1.besti
          = (flmInner i 0 a.length prev js st cur).1.bestj)
        ∧ st.bestsize ≤ (flmInner i 0 a.length prev js st cur).1.bestsize
        ∧ (∀ i', i' < i → mlen (chainB a) a i' i'
              ≤ (flmInner i 0 a.length prev js st cur).1.bestsize)
        ∧ mlen (chainB a) a i i ≤ (flmInner i 0 a.length prev js st cur).1.bestsize
        ∧ (∀ j, j2lenGet (flmInner i 0 a.length prev js st cur).2 j
            = if memRowB (chainB a) a i j = true then mlen (chainB a) a i j else 0) := by
  intro js
  induction js with
  | nil =>
    intro st cur _ _ Hcur Hdiag Hdom Hself
    refine ⟨Hdiag, le_refl _, Hdom, Hself.resolve_left (List.not_mem_nil i), ?_⟩
    intro j
    have := Hcur j
    simpa using this
  | cons j0 rest ih =>
    intro st cur Hsort Hmem Hcur Hdiag Hdom Hself
    obtain ⟨hmem0, hlt0⟩ := Hmem j0 (List.mem_cons_self j0 rest)
    have hsort' : rest.Pairwise (· < ·) := (List.pairwise_cons.mp Hsort).2
    have hj0lt : ∀ x ∈ rest, j0 < x := (List.pairwise_cons.mp Hsort).1
    have hj0nr : j0 ∉ rest := fun hx => absurd (hj0lt j0 hx) (lt_irrefl j0)
    have hk := Hk j0 hmem0
    rw [flmInner]
    have h1 : ¬ (j0 < 0) := Nat.not_lt_zero j0
    have h2 : ¬ (a.length ≤ j0) := by omega
    simp only [h1, h2, if_false]
    have Hcur' : ∀ j, j2lenGet ((j0, (if j0 = 0 then 0 else j2lenGet prev (j0 - 1)) + 1) :: cur) j
        = if memRowB (chainB a) a i j = true ∧ j ∉ rest then mlen (chainB a) a i j else 0 := by
      intro j
      rw [j2lenGet_cons]
      by_cases hjj : j0 = j
      · rw [if_pos hjj, ← hjj,
          if_pos (show memRowB (chainB a) a i j0 = true ∧ j0 ∉ rest from ⟨hmem0, hj0nr⟩)]
        exact hk
      · rw [if_neg hjj, Hcur j]
        refine if_congr ?_ rfl rfl
        constructor
        · rintro ⟨ha, hb⟩
          exact ⟨ha, fun hx => hb (List.mem_cons_of_mem j0 hx)⟩
        · rintro ⟨ha, hb⟩
          refine ⟨ha, fun hx => ?_⟩
          rcases List.mem_cons.mp hx with hx | hx
          · exact hjj hx.symm
          · exact hb hx
    rcases Nat.lt_trichotomy j0 i with hlt | heq | hgt
    · -- j0 is left of the diagonal: dominated by an earlier diagonal, no update
      have hub : (if j0 = 0 then 0 else j2lenGet prev (j0 - 1)) + 1 ≤ st.bestsize := by
        rw [hk]
        exact le_trans (mlen_le_diag_right a i j0) (Hdom j0 hlt)
      have hnupd : ¬ st.bestsize < (if j0 = 0 then 0 else j2lenGet prev (j0 - 1)) + 1 := by
        omega
      simp only [hnupd, if_false]
      have Hself' : i ∈ rest ∨ mlen (chainB a) a i i ≤ st.bestsize := by
        rcases Hself with hin | hle
        · rcases List.mem_cons.mp hin with hin | hin
          · omega
          · exact Or.inl hin
        · exact Or.inr hle
      exact ih st _ hsort' (fun j hj => Hmem j (List.mem_cons_of_mem j0 hj)) Hcur' Hdiag
        Hdom Hself'
    · -- j0 is the diagonal entry itself
      subst heq
      by_cases hupd : st.bestsize < (if j0 = 0 then 0 else j2lenGet prev (j0 - 1)) + 1
      · simp only [hupd, if_true]
        have H := ih ⟨j0 + 1 - ((if j0 = 0 then 0 else j2lenGet prev (j0 - 1)) + 1),
            j0 + 1 - ((if j0 = 0 then 0 else j2lenGet prev (j0 - 1)) + 1),
            (if j0 = 0 then 0 else j2lenGet prev (j0 - 1)) + 1⟩ _ hsort'
          (fun j hj => Hmem j (List.mem_cons_of_mem j0 hj)) Hcur' rfl
          (fun i' hi' => le_trans (le_trans (Hdom i' hi') (le_of_lt hupd)) (le_refl _))
          (Or.inr (le_of_eq hk.symm))
        exact ⟨H.1, le_trans (le_of_lt hupd) H.2.1, H.2.2.1, H.2.2.2.1, H.2.2.2.2⟩
      · simp only [hupd, if_false]
        have H := ih st _ hsort' (fun j hj => Hmem j (List.mem_cons_of_mem j0 hj)) Hcur'
          Hdiag Hdom (Or.inr (by rw [← hk]; omega))
        exact H
    · -- j0 is right of the diagonal, which was already processed: no update
      have hii : mlen (chainB a) a i i ≤ st.bestsize := by
        rcases Hself with hin | hle
        · rcases List.mem_cons.mp hin with hin | hin
          · omega
          · exact absurd (hj0lt i hin) (by omega)
        · exact hle
      have hub : (if j0 = 0 then 0 else j2lenGet prev (j0 - 1)) + 1 ≤ st.bestsize := by
        rw [hk]
        exact le_trans (mlen_le_diag_left a i j0) hii
      have hnupd : ¬ st.bestsize < (if j0 = 0 then 0 else j2lenGet prev (j0 - 1)) + 1 := by
        omega
      simp only [hnupd, if_false]
      exact ih st _ hsort' (fun j hj => Hmem j (List.mem_cons_of_mem j0 hj)) Hcur' Hdiag
        Hdom (Or.inr hii)

theorem lt_length_of_getElem?_eq_some {α : Type} (l : List α) (n : Nat) (x : α)
    (h : l[n]? = some x) : n < l.length := by
  by_contra hn
  rw [List.getElem?_eq_none (by omega)] at h
  cases h

theorem mlen_step {α : Type} [DecidableEq α] (a : List α) (start : Nat)
    (prev : List (Nat × Nat))
    (hprev : ∀ j, j2lenGet prev j = (match start with
      | 0 => 0
      | i' + 1 => mlen (chainB a) a i' j)) :
    ∀ j, memRowB (chainB a) a start j = true →
      (if j = 0 then 0 else j2lenGet prev (j - 1)) + 1 = mlen (chainB a) a start j := by
  cases start with
  | zero =>
    intro j hj
    simp only [mlen, hj, if_true]
    by_cases hj0 : j = 0
    · rw [if_pos hj0]
    · rw [if_neg hj0, hprev]
  | succ i' =>
    intro j hj
    simp only [mlen, hj, if_true]
    by_cases hj0 : j = 0
    · rw [if_pos hj0, if_pos hj0]
    · rw [if_neg hj0, if_neg hj0, hprev]

theorem flmPhase1_diag_aux {α : Type} [DecidableEq α] (a : List α) :
    ∀ (cnt start : Nat) (acc : FlmSt × List (Nat × Nat)),
      start + cnt = a.length →
      acc.1.besti = acc.1.bestj →
      (∀ i', i' < start → mlen (chainB a) a i' i' ≤ acc.1.bestsize) →
      (∀ j, j2lenGet acc.2 j = (match start with
        | 0 => 0
        | i' + 1 => mlen (chainB a) a i' j)) →
      ((List.range' start cnt).foldl
          (fun (p : FlmSt × List (Nat × Nat)) i =>
            match a[i]? with
            | none => (p.1, [])
            | some ai => flmInner i 0 a.length p.2 (b2jGet (chainB a) ai) p.1 [])
          acc).1.besti
        = ((List.range' start cnt).foldl
          (fun (p : FlmSt × List (Nat × Nat)) i =>
            match a[i]? with
            | none => (p.1, [])
            | some ai => flmInner i 0 a.length p.2 (b2jGet (chainB a) ai) p.1 [])
          acc).1.bestj := by
  intro cnt
  induction cnt with
  | zero =>
    intro start acc _ hdiag _ _
    simpa using hdiag
  | succ cnt ih =>
    intro start acc hsum hdiag hdom hprev
    rw [List.range'_succ]
    simp only [List.foldl_cons]
    have hstart : start < a.length := by omega
    have ha : a[start]? = some (a[start]) := List.getElem?_eq_getElem hstart
    simp only [ha]
    have Hmem : ∀ j ∈ b2jGet (chainB a) (a[start]),
        memRowB (chainB a) a start j = true ∧ j < a.length := by
      intro j hj
      have haj := chainB_mem a _ j hj
      constructor
      · unfold memRowB
        rw [ha]
        exact decide_eq_true hj
      · exact lt_length_of_getElem?_eq_some a j _ haj
    have Hcur0 : ∀ j, j2lenGet [] j
        = if memRowB (chainB a) a start j = true ∧ j ∉ b2jGet (chainB a) (a[start]) then
            mlen (chainB a) a start j else 0 := by
      intro j
      by_cases hc : memRowB (chainB a) a start j = true
          ∧ j ∉ b2jGet (chainB a) (a[start])
      · exfalso
        obtain ⟨hmr, hnot⟩ := hc
        apply hnot
        unfold memRowB at hmr
        rw [ha] at hmr
        exact of_decide_eq_true hmr
      · rw [if_neg hc]
        rfl
    have Hself : start ∈ b2jGet (chainB a) (a[start])
        ∨ mlen (chainB a) a start start ≤ acc.1.bestsize := by
      cases hjs : b2jGet (chainB a) (a[start]) with
      | nil =>
        right
        have hmr : memRowB (chainB a) a start start = false := by
          simp [memRowB, ha, hjs]
        rw [mlen_eq_zero _ _ _ _ hmr]
        omega
      | cons x xs =>
        left
        have hx : x ∈ b2jGet (chainB a) (a[start]) := by
          rw [hjs]
          exact List.mem_cons_self x xs
        exact hjs ▸ chainB_complete a _ x start hx ha
    have H := flmInner_diag a start acc.2 (mlen_step a start acc.2 hprev)
      (b2jGet (chainB a) (a[start])) acc.1 [] (chainB_sorted a _) Hmem Hcur0 hdiag hdom Hself
    refine ih (start + 1) _ (by omega) H.1 ?_ ?_
    · intro i' hi'
      rcases Nat.lt_or_ge i' start with h | h
      · exact H.2.2.1 i' h
      · have : i' = start := by omega
        rw [this]
        exact H.2.2.2.1
    · intro j
      rw [H.2.2.2.2 j]
      by_cases hmr : memRowB (chainB a) a start j = true
      · rw [if_pos hmr]
      · rw [if_neg hmr]
        show (0 : Nat) = mlen (chainB a) a start j
        rw [mlen_eq_zero _ _ _ _ (by simpa using hmr)]

theorem flmPhase1_diag {α : Type} [DecidableEq α] (a : List α) :
    (flmPhase1 a (chainB a) 0 a.length 0 a.length).besti
      = (flmPhase1 a (chainB a) 0 a.length 0 a.length).bestj := by
  unfold flmPhase1
  rw [Nat.sub_zero]
  exact flmPhase1_diag_aux a a.length 0 (⟨0, 0, 0⟩, []) (by omega) rfl
    (fun i' hi' => absurd hi' (Nat.not_lt_zero i')) (fun j => rfl)

theorem extendLeft_diag {α : Type} [DecidableEq α] (a : List α) :
    ∀ (fuel : Nat) (st : FlmSt), st.besti = st.bestj → st.besti ≤ fuel →
      st.besti ≤ a.length →
      (extendLeft a a 0 0 fuel st).besti = 0
        ∧ (extendLeft a a 0 0 fuel st).bestj = 0
        ∧ (extendLeft a a 0 0 fuel st).bestsize = st.besti + st.bestsize := by
  intro fuel
  induction fuel with
  | zero =>
    intro st hd h1 h2
    rw [extendLeft]
    have h0 : st.besti = 0 := by omega
    exact ⟨h0, hd ▸ h0, by omega⟩
  | succ fuel ih =>
    intro st hd h1 h2
    rw [extendLeft, ← hd]
    by_cases hz : st.besti = 0
    · cases hx : a[st.besti - 1]? with
      | none =>
        dsimp only
        exact ⟨hz, hd ▸ hz, by omega⟩
      | some x =>
        dsimp only
        rw [if_neg (by rintro ⟨hc, -⟩; omega)]
        exact ⟨hz, hd ▸ hz, by omega⟩
    · have hb' : st.besti - 1 < a.length := by omega
      have hx : a[st.besti - 1]? = some (a[st.besti - 1]) := List.getElem?_eq_getElem hb'
      simp only [hx]
      rw [if_pos ⟨by omega, by omega, trivial⟩]
      have H := ih ⟨st.besti - 1, st.besti - 1, st.bestsize + 1⟩ rfl
        (by dsimp only; omega) (by dsimp only; omega)
      refine ⟨H.1, H.2.1, ?_⟩
      rw [H.2.2]
      dsimp only
      omega

theorem extendRight_diag {α : Type} [DecidableEq α] (a : List α) :
    ∀ (fuel : Nat) (st : FlmSt), st.besti = 0 → st.bestj = 0 → st.bestsize ≤ a.length →
      a.length ≤ st.bestsize + fuel →
      (extendRight a a a.length a.length fuel st).besti = 0
        ∧ (extendRight a a a.length a.length fuel st).bestj = 0
        ∧ (extendRight a a a.length a.length fuel st).bestsize = a.length := by
  intro fuel
  induction fuel with
  | zero =>
    intro st h0 h1 h2 h3
    rw [extendRight]
    exact ⟨h0, h1, by omega⟩
  | succ fuel ih =>
    intro st h0 h1 h2 h3
    rw [extendRight, h0, h1, Nat.zero_add]
    by_cases hlt : st.bestsize < a.length
    · have hx : a[st.bestsize]? = some (a[st.bestsize]) := List.getElem?_eq_getElem hlt
      simp only [hx]
      rw [if_pos ⟨hlt, hlt, trivial⟩]
      exact ih ⟨0, 0, st.bestsize + 1⟩ rfl rfl (by dsimp only; omega) (by dsimp only; omega)
    · have hx : a[st.bestsize]? = none := List.getElem?_eq_none (by omega)
      simp only [hx]
      exact ⟨h0, h1, by omega⟩

theorem flm_self {α : Type} [DecidableEq α] (a : List α) :
    findLongestMatch a a (chainB a) 0 a.length 0 a.length = ⟨0, 0, a.length⟩ := by
  obtain ⟨hp1, hp2, hp3, hp4⟩ :=
    flmPhase1_inv a (chainB a) 0 a.length 0 a.length (by omega) (by omega)
  have hd := flmPhase1_diag a
  have hL := extendLeft_diag a (flmPhase1 a (chainB a) 0 a.length 0 a.length).besti
    (flmPhase1 a (chainB a) 0 a.length 0 a.length) hd (le_refl _) (by omega)
  have hR := extendRight_diag a a.length
    (extendLeft a a 0 0 (flmPhase1 a (chainB a) 0 a.length 0 a.length).besti
      (flmPhase1 a (chainB a) 0 a.length 0 a.length)) hL.1 hL.2.1
    (by rw [hL.2.2]; omega) (by rw [hL.2.2]; omega)
  show (⟨(extendRight a a a.length a.length a.length
      (extendLeft a a 0 0 (flmPhase1 a (chainB a) 0 a.length 0 a.length).besti
        (flmPhase1 a (chainB a) 0 a.length 0 a.length))).besti,
    (extendRight a a a.length a.length a.length
      (extendLeft a a 0 0 (flmPhase1 a (chainB a) 0 a.length 0 a.length).besti
        (flmPhase1 a (chainB a) 0 a.length 0 a.length))).bestj,
    (extendRight a a a.length a.length a.length
      (extendLeft a a 0 0 (flmPhase1 a (chainB a) 0 a.length 0 a.length).besti
        (flmPhase1 a (chainB a) 0 a.length 0 a.length))).bestsize⟩ : MatchBlock)
    = ⟨0, 0, a.length⟩
  rw [hR.1, hR.2.1, hR.2.2]

/-! ## Comparing a sequence with itself -/

theorem matchingBlocksRec_self {α : Type} [DecidableEq α] (a : List α) (h : a.length ≠ 0) :
    matchingBlocksRec a a (chainB a) (a.length + 1) 0 a.length 0 a.length
      = [⟨0, 0, a.length⟩] := by
  rw [matchingBlocksRec, flm_self]
  dsimp only
  rw [if_neg h, if_neg (by rintro ⟨h1, -⟩; omega), if_neg (by rintro ⟨h1, -⟩; omega)]
  simp

theorem getMatchingBlocks_self {α : Type} [DecidableEq α] (a : List α) (h : a.length ≠ 0) :
    getMatchingBlocks a a = [⟨0, 0, a.length⟩, ⟨a.length, a.length, 0⟩] := by
  show mergeLoop 0 0 0 (sortBlocks
      (matchingBlocksRec a a (chainB a) (a.length + 1) 0 a.length 0 a.length))
    ++ [⟨a.length, a.length, 0⟩] = _
  rw [matchingBlocksRec_self a h]
  rw [show sortBlocks [(⟨0, 0, a.length⟩ : MatchBlock)] = [⟨0, 0, a.length⟩] from rfl]
  rw [mergeLoop]
  rw [if_pos (by dsimp only; omega)]
  rw [mergeLoop]
  rw [if_pos (by dsimp only; omega)]
  simp

theorem getOpcodes_self {α : Type} [DecidableEq α] (a : List α) (h : a.length ≠ 0) :
    getOpcodes a a = [⟨.equal, 0, a.length, 0, a.length⟩] := by
  unfold getOpcodes
  rw [getMatchingBlocks_self a h]
  simp only [opcodeLoop]
  norm_num [h]

theorem groupedOpcodes_self {α : Type} [DecidableEq α] (a : List α) :
    getGroupedOpcodes a a 3 = [] := by
  by_cases h : a.length = 0
  · have ha := List.length_eq_zero.mp h
    subst ha
    rfl
  · simp only [getGroupedOpcodes, getOpcodes_self a h]
    rw [if_neg (by simp)]
    rw [fixHead]
    simp only [fixTail, List.getLast?_singleton, List.dropLast_single, List.nil_append]
    rw [groupLoop]
    rw [if_neg (by
      rintro ⟨-, hgt⟩
      dsimp only at hgt
      omega)]
    rw [List.nil_append, groupLoop]
    rw [if_neg (by
      rintro ⟨-, hno⟩
      exact hno ⟨by simp, by simp⟩)]

theorem unifiedDiff_self (x : List (List Char)) (f t : String) :
    unifiedDiff x x f t = [] := by
  unfold unifiedDiff
  rw [groupedOpcodes_self]
  rw [if_pos rfl]

theorem matchesTotal_self {α : Type} [DecidableEq α] (a : List α) :
    matchesTotal a a = a.length := by
  by_cases h : a.length = 0
  · have ha := List.length_eq_zero.mp h
    subst ha
    rfl
  · unfold matchesTotal
    rw [getMatchingBlocks_self a h]
    simp

theorem ratioScore_self {α : Type} [DecidableEq α] (a : List α) : ratioScore a a = 1 := by
  unfold ratioScore calcRatioQ
  rw [matchesTotal_self]
  by_cases h : a.length + a.length = 0
  · rw [if_pos h]
  · rw [if_neg h]
    rw [div_eq_one_iff_eq (by exact_mod_cast h)]
    push_cast
    ring

/-- C10: `compare_versions` reads the LIVE file at each version's recorded
path, not the versions' stored snapshots: whenever the two resolved versions
record the same artifact path and the live file is present, both sides read
the same content, so the result is an empty diff, zero additions, zero
deletions and similarity `100` — regardless of the versions' hashes, of the
snapshot store and of everything else in the state. -/
theorem claim10_compare_reads_live_file (s : RepoState) (id1 id2 : String)
    (v1 v2 : Version) (c : List Char)
    (hf1 : findVersion s.mem.versions id1 = some v1)
    (hf2 : findVersion s.mem.versions id2 = some v2)
    (hfile : v1.file = v2.file)
    (hg1 : fsGet s.files v1.file = some c) :
    (compareVersions s id1 id2).2 = .ok ⟨id1, id2, 100, 0, 0, ""⟩ := by
  have hg2 : fsGet s.files v2.file = some c := by rw [← hfile]; exact hg1
  rw [compareVersions_resolved s id1 id2 v1 v2 c c hf1 hf2 hg1 hg2]
  dsimp only
  rw [unifiedDiff_self, ratioScore_self]
  norm_num

/-- C10 witness: two versions of one artifact with different recorded hashes
and different snapshots compare as identical because both sides read the live
file. -/
theorem claim10_witness :
    (compareVersions
        ⟨⟨[⟨"v1.0.0", "t1", "core.md", "A", "d1", false, false, []⟩,
           ⟨"v2.0.0", "t2", "core.md", "B", "d2", true, false, []⟩], []⟩, .absent,
          [("core.md", "x".data)],
          [("core.md.v1.0.0", "old".data), ("core.md.v2.0.0", "new".data)]⟩
        "v1.0.0" "v2.0.0").2 = .ok ⟨"v1.0.0", "v2.0.0", 100, 0, 0, ""⟩ :=
  claim10_compare_reads_live_file _ "v1.0.0" "v2.0.0"
    ⟨"v1.0.0", "t1", "core.md", "A", "d1", false, false, []⟩
    ⟨"v2.0.0", "t2", "core.md", "B", "d2", true, false, []⟩
    "x".data rfl rfl rfl rfl

/-- C9 counterexample: the greedy matcher is direction-sensitive. With live
contents `"aaxbb"` and `"bbyaabb"`, comparing `v1→v2` reports similarity
`200/3` but `v2→v1` reports `100/3`, so the similarity score is NOT identical
in both directions; and with the five lines `A A X B B` against the seven
lines `B B Y A A B B`, `additions(v3,v4) = 4` while `deletions(v4,v3) = 6`
(the `'-'`/`'+'` counts also include the `---`/`+++` header lines), so the
addition/deletion counts do NOT swap. -/
theorem claim9_counterexample :
    cmpSimilarity (compareVersions
        ⟨⟨[⟨"v1", "t1", "f1", "h1", "d1", false, false, []⟩,
           ⟨"v2", "t2", "f2", "h2", "d2", false, false, []⟩,
           ⟨"v3", "t3", "f3", "h3", "d3", false, false, []⟩,
           ⟨"v4", "t4", "f4", "h4", "d4", false, false, []⟩], []⟩, .absent,
          [("f1", "aaxbb".data), ("f2", "bbyaabb".data),
           ("f3", "A\nA\nX\nB\nB\n".data), ("f4", "B\nB\nY\nA\nA\nB\nB\n".data)], []⟩
        "v1" "v2") = some (200 / 3)
    ∧ cmpSimilarity (compareVersions
        ⟨⟨[⟨"v1", "t1", "f1", "h1", "d1", false, false, []⟩,
           ⟨"v2", "t2", "f2", "h2", "d2", false, false, []⟩,
           ⟨"v3", "t3", "f3", "h3", "d3", false, false, []⟩,
           ⟨"v4", "t4", "f4", "h4", "d4", false, false, []⟩], []⟩, .absent,
          [("f1", "aaxbb".data), ("f2", "bbyaabb".data),
           ("f3", "A\nA\nX\nB\nB\n".data), ("f4", "B\nB\nY\nA\nA\nB\nB\n".data)], []⟩
        "v2" "v1") = some (100 / 3)
    ∧ (200 / 3 : ℚ) ≠ 100 / 3
    ∧ cmpAdditions (compareVersions
        ⟨⟨[⟨"v1", "t1", "f1", "h1", "d1", false, false, []⟩,
           ⟨"v2", "t2", "f2", "h2", "d2", false, false, []⟩,
           ⟨"v3", "t3", "f3", "h3", "d3", false, false, []⟩,
           ⟨"v4", "t4", "f4", "h4", "d4", false, false, []⟩], []⟩, .absent,
          [("f1", "aaxbb".data), ("f2", "bbyaabb".data),
           ("f3", "A\nA\nX\nB\nB\n".data), ("f4", "B\nB\nY\nA\nA\nB\nB\n".data)], []⟩
        "v3" "v4") = some 4
    ∧ cmpDeletions (compareVersions
        ⟨⟨[⟨"v1", "t1", "f1", "h1", "d1", false, false, []⟩,
           ⟨"v2", "t2", "f2", "h2", "d2", false, false, []⟩,
           ⟨"v3", "t3", "f3", "h3", "d3", false, false, []⟩,
           ⟨"v4", "t4", "f4", "h4", "d4", false, false, []⟩], []⟩, .absent,
          [("f1", "aaxbb".data), ("f2", "bbyaabb".data),
           ("f3", "A\nA\nX\nB\nB\n".data), ("f4", "B\nB\nY\nA\nA\nB\nB\n".data)], []⟩
        "v4" "v3") = some 6 := by
  refine ⟨?_, ?_, by norm_num, ?_, ?_⟩
  · rw [compareVersions_resolved
      ⟨⟨[⟨"v1", "t1", "f1", "h1", "d1", false, false, []⟩,
         ⟨"v2", "t2", "f2", "h2", "d2", false, false, []⟩,
         ⟨"v3", "t3", "f3", "h3", "d3", false, false, []⟩,
         ⟨"v4", "t4", "f4", "h4", "d4", false, false, []⟩], []⟩, .absent,
        [("f1", "aaxbb".data), ("f2", "bbyaabb".data),
         ("f3", "A\nA\nX\nB\nB\n".data), ("f4", "B\nB\nY\nA\nA\nB\nB\n".data)], []⟩
      "v1" "v2"
      ⟨"v1", "t1", "f1", "h1", "d1", false, false, []⟩
      ⟨"v2", "t2", "f2", "h2", "d2", false, false, []⟩
      "aaxbb".data "bbyaabb".data rfl rfl rfl rfl]
    simp only [cmpSimilarity]
    rw [show (readlines "aaxbb".data).flatten = "aaxbb".data from rfl,
      show (readlines "bbyaabb".data).flatten = "bbyaabb".data from rfl]
    have hm : matchesTotal "aaxbb".data "bbyaabb".data = 4 := by decide
    simp only [ratioScore, calcRatioQ, hm,
      show ("aaxbb".data).length = 5 from rfl, show ("bbyaabb".data).length = 7 from rfl]
    norm_num
  · rw [compareVersions_resolved
      ⟨⟨[⟨"v1", "t1", "f1", "h1", "d1", false, false, []⟩,
         ⟨"v2", "t2", "f2", "h2", "d2", false, false, []⟩,
         ⟨"v3", "t3", "f3", "h3", "d3", false, false, []⟩,
         ⟨"v4", "t4", "f4", "h4", "d4", false, false, []⟩], []⟩, .absent,
        [("f1", "aaxbb".data), ("f2", "bbyaabb".data),
         ("f3", "A\nA\nX\nB\nB\n".data), ("f4", "B\nB\nY\nA\nA\nB\nB\n".data)], []⟩
      "v2" "v1"
      ⟨"v2", "t2", "f2", "h2", "d2", false, false, []⟩
      ⟨"v1", "t1", "f1", "h1", "d1", false, false, []⟩
      "bbyaabb".data "aaxbb".data rfl rfl rfl rfl]
    simp only [cmpSimilarity]
    rw [show (readlines "bbyaabb".data).flatten = "bbyaabb".data from rfl,
      show (readlines "aaxbb".data).flatten = "aaxbb".data from rfl]
    have hm : matchesTotal "bbyaabb".data "aaxbb".data = 2 := by decide
    simp only [ratioScore, calcRatioQ, hm,
      show ("aaxbb".data).length = 5 from rfl, show ("bbyaabb".data).length = 7 from rfl]
    norm_num
  · rw [compareVersions_resolved
      ⟨⟨[⟨"v1", "t1", "f1", "h1", "d1", false, false, []⟩,
         ⟨"v2", "t2", "f2", "h2", "d2", false, false, []⟩,
         ⟨"v3", "t3", "f3", "h3", "d3", false, false, []⟩,
         ⟨"v4", "t4", "f4", "h4", "d4", false, false, []⟩], []⟩, .absent,
        [("f1", "aaxbb".data), ("f2", "bbyaabb".data),
         ("f3", "A\nA\nX\nB\nB\n".data), ("f4", "B\nB\nY\nA\nA\nB\nB\n".data)], []⟩
      "v3" "v4"
      ⟨"v3", "t3", "f3", "h3", "d3", false, false, []⟩
      ⟨"v4", "t4", "f4", "h4", "d4", false, false, []⟩
      "A\nA\nX\nB\nB\n".data "B\nB\nY\nA\nA\nB\nB\n".data rfl rfl rfl rfl]
    simp only [cmpAdditions]
    decide
  · rw [compareVersions_resolved
      ⟨⟨[⟨"v1", "t1", "f1", "h1", "d1", false, false, []⟩,
         ⟨"v2", "t2", "f2", "h2", "d2", false, false, []⟩,
         ⟨"v3", "t3", "f3", "h3", "d3", false, false, []⟩,
         ⟨"v4", "t4", "f4", "h4", "d4", false, false, []⟩], []⟩, .absent,
        [("f1", "aaxbb".data), ("f2", "bbyaabb".data),
         ("f3", "A\nA\nX\nB\nB\n".data), ("f4", "B\nB\nY\nA\nA\nB\nB\n".data)], []⟩
      "v4" "v3"
      ⟨"v4", "t4", "f4", "h4", "d4", false, false, []⟩
      ⟨"v3", "t3", "f3", "h3", "d3", false, false, []⟩
      "B\nB\nY\nA\nA\nB\nB\n".data "A\nA\nX\nB\nB\n".data rfl rfl rfl rfl]
    simp only [cmpDeletions]
    decide

/-- C9 (amended): the claimed count-swap and similarity symmetry do NOT hold
for general contents (the greedy matcher is direction-sensitive); they do hold
in the direction-independent case of equal live contents, where both
directions succeed with `additions = deletions = 0` and similarity `100`
(so the counts swap and the similarity agrees trivially). -/
theorem claim9_swap_on_equal_content (s : RepoState) (id1 id2 : String)
    (v1 v2 : Version) (c : List Char)
    (hf1 : findVersion s.mem.versions id1 = some v1)
    (hf2 : findVersion s.mem.versions id2 = some v2)
    (hg1 : fsGet s.files v1.file = some c)
    (hg2 : fsGet s.files v2.file = some c) :
    ∃ r12 r21 : CompareResult,
      (compareVersions s id1 id2).2 = .ok r12
        ∧ (compareVersions s id2 id1).2 = .ok r21
        ∧ r12.additions = r21.deletions
        ∧ r12.deletions = r21.additions
        ∧ r12.similarity = r21.similarity
        ∧ r12.additions = 0
        ∧ r12.deletions = 0
        ∧ r12.similarity = 100 := by
  rw [compareVersions_resolved s id1 id2 v1 v2 c c hf1 hf2 hg1 hg2,
    compareVersions_resolved s id2 id1 v2 v1 c c hf2 hf1 hg2 hg1]
  refine ⟨_, _, rfl, rfl, ?_, ?_, ?_, ?_, ?_⟩ <;>
    simp [unifiedDiff_self, ratioScore_self]

/-- C9 witness: two versions recording different paths whose live files hold
the same bytes compare symmetrically in both directions. -/
theorem claim9_witness :
    ∃ r12 r21 : CompareResult,
      (compareVersions
          ⟨⟨[⟨"v1.0.0", "t1", "a.md", "A", "d1", false, false, []⟩,
             ⟨"v2.0.0", "t2", "b.md", "B", "d2", false, false, []⟩], []⟩, .absent,
            [("a.md", "same\n".data), ("b.md", "same\n".data)], []⟩
          "v1.0.0" "v2.0.0").2 = .ok r12
        ∧ (compareVersions
          ⟨⟨[⟨"v1.0.0", "t1", "a.md", "A", "d1", false, false, []⟩,
             ⟨"v2.0.0", "t2", "b.md", "B", "d2", false, false, []⟩], []⟩, .absent,
            [("a.md", "same\n".data), ("b.md", "same\n".data)], []⟩
          "v2.0.0" "v1.0.0").2 = .ok r21
        ∧ r12.additions = r21.deletions
        ∧ r12.deletions = r21.additions
        ∧ r12.similarity = r21.similarity
        ∧ r12.additions = 0
        ∧ r12.deletions = 0
        ∧ r12.similarity = 100 :=
  claim9_swap_on_equal_content
    ⟨⟨[⟨"v1.0.0", "t1", "a.md", "A", "d1", false, false, []⟩,
       ⟨"v2.0.0", "t2", "b.md", "B", "d2", false, false, []⟩], []⟩, .absent,
      [("a.md", "same\n".data), ("b.md", "same\n".data)], []⟩
    "v1.0.0" "v2.0.0"
    ⟨"v1.0.0", "t1", "a.md", "A", "d1", false, false, []⟩
    ⟨"v2.0.0", "t2", "b.md", "B", "d2", false, false, []⟩
    "same\n".data rfl rfl rfl rfl
